import Mathlib

set_option maxHeartbeats 1600000

/-!
Verification of the `deep-merge-changes` merge engine (`src/lib/index.js`).

The JavaScript source is shallowly embedded. JavaScript values are the
inductive type `Val`; plain records and arrays carry an allocation
identifier modelling reference identity: within a single call tree whose
inputs have identifiers below the allocation counter `σ`, two collections
are `===` in JavaScript exactly when their identifiers agree, and every
collection freshly built during a merge receives an identifier at or above
the counter passed in. Arrays are lists of `Option Val`; `none` models a
hole of a sparse array, which `Object.keys` and `Array.prototype.filter`
skip. `Val.undef` is the JavaScript value `undefined` (the result of
reading an absent property), `Val.omit` is the exported `OMIT` symbol, and
`Val.exotic` stands for non-plain objects (class instances, dates, maps,
sets), which `isCollection` rejects.

The merge itself (`pmergeF`, wrapped as `pmergeC` / `deepMergeChangesC`)
is a direct transcription of `deepMergeChanges`: the fuel argument only
drives the recursion and is irrelevant once it exceeds the height of the
changes value (`pmergeF_stable`).
-/

/-- JavaScript runtime values. Collections carry an allocation identifier
modelling their reference identity. -/
inductive Val : Type where
  | undef : Val
  | null : Val
  | num : Int → Val
  | str : String → Val
  | bool : Bool → Val
  | omit : Val
  | exotic : Nat → Val
  | record : Nat → List (String × Val) → Val
  | arr : Nat → List (Option Val) → Val

/-- The decimal digit character for `d < 10`, as produced by JavaScript
number-to-string conversion. -/
def digitChar (d : Nat) : Char := Char.ofNat (48 + d)

/-- Little-endian decimal digits of `n`, with explicit fuel so that the
definition is structural and kernel-reducible. -/
def digitsAux : Nat → Nat → List Nat
  | f + 1, n + 1 => (n + 1) % 10 :: digitsAux f ((n + 1) / 10)
  | _, _ => []

def natDigits (n : Nat) : List Nat := digitsAux n n

/-- JavaScript's canonical decimal string for a nonnegative integer, used
both for array-index property keys and by `Object.keys` on arrays. -/
def natToString (n : Nat) : String :=
  match n with
  | 0 => "0"
  | _ => String.mk (((natDigits n).map digitChar).reverse)

def charDigit (c : Char) : Option Nat :=
  if 48 ≤ c.toNat && c.toNat ≤ 57 then some (c.toNat - 48) else none

def undigits : List Nat → Nat
  | [] => 0
  | d :: ds => d + 10 * undigits ds

def mapDigits : List Char → Option (List Nat)
  | [] => some []
  | c :: cs =>
    match charDigit c, mapDigits cs with
    | some d, some ds => some (d :: ds)
    | _, _ => none

/-- Recognizes canonical array-index strings: `parseIndex s = some i` iff
`s` is exactly the canonical decimal representation of `i` (matching the
JavaScript specification of array index property keys). -/
def parseIndex (s : String) : Option Nat :=
  match mapDigits s.data.reverse with
  | some ds => if natToString (undigits ds) == s then some (undigits ds) else none
  | none => none

mutual
/-- Structural (identifier-sensitive) equality of embedded values. -/
def valBeq : Val → Val → Bool
  | .undef, .undef => true
  | .null, .null => true
  | .num a, .num b => a == b
  | .str a, .str b => a == b
  | .bool a, .bool b => a == b
  | .omit, .omit => true
  | .exotic a, .exotic b => a == b
  | .record i es, .record j fs => i == j && entriesBeq es fs
  | .arr i xs, .arr j ys => i == j && elemsBeq xs ys
  | _, _ => false
def entriesBeq : List (String × Val) → List (String × Val) → Bool
  | [], [] => true
  | (k, v) :: es, (k', v') :: fs => k == k' && valBeq v v' && entriesBeq es fs
  | _, _ => false
def elemsBeq : List (Option Val) → List (Option Val) → Bool
  | [], [] => true
  | none :: xs, none :: ys => elemsBeq xs ys
  | some v :: xs, some w :: ys => valBeq v w && elemsBeq xs ys
  | _, _ => false
end

instance : BEq Val := ⟨valBeq⟩

mutual
theorem valBeq_refl : ∀ v : Val, valBeq v v = true
  | .undef => rfl
  | .null => rfl
  | .num _ => by simp [valBeq]
  | .str _ => by simp [valBeq]
  | .bool _ => by simp [valBeq]
  | .omit => rfl
  | .exotic _ => by simp [valBeq]
  | .record _ es => by simp [valBeq, entriesBeq_refl es]
  | .arr _ xs => by simp [valBeq, elemsBeq_refl xs]
theorem entriesBeq_refl : ∀ es : List (String × Val), entriesBeq es es = true
  | [] => rfl
  | (k, v) :: es => by simp [entriesBeq, valBeq_refl v, entriesBeq_refl es]
theorem elemsBeq_refl : ∀ xs : List (Option Val), elemsBeq xs xs = true
  | [] => rfl
  | none :: xs => by simp [elemsBeq, elemsBeq_refl xs]
  | some v :: xs => by simp [elemsBeq, valBeq_refl v, elemsBeq_refl xs]
end

mutual
theorem valBeq_sound : ∀ a b : Val, valBeq a b = true → a = b
  | .undef, .undef, _ => rfl
  | .null, .null, _ => rfl
  | .num _, .num _, h => by simp [valBeq] at h; simp [h]
  | .str _, .str _, h => by simp [valBeq] at h; simp [h]
  | .bool _, .bool _, h => by simp [valBeq] at h; simp [h]
  | .omit, .omit, _ => rfl
  | .exotic _, .exotic _, h => by simp [valBeq] at h; simp [h]
  | .record _ es, .record _ fs, h => by
    simp only [valBeq, Bool.and_eq_true, beq_iff_eq] at h
    simp [h.1, entriesBeq_sound es fs h.2]
  | .arr _ xs, .arr _ ys, h => by
    simp only [valBeq, Bool.and_eq_true, beq_iff_eq] at h
    simp [h.1, elemsBeq_sound xs ys h.2]
  | .undef, .null, h => by simp [valBeq] at h
theorem entriesBeq_sound : ∀ es fs : List (String × Val), entriesBeq es fs = true → es = fs
  | [], [], _ => rfl
  | (k, v) :: es, (k', v') :: fs, h => by
    simp only [entriesBeq, Bool.and_eq_true, beq_iff_eq] at h
    simp [h.1.1, valBeq_sound v v' h.1.2, entriesBeq_sound es fs h.2]
  | [], _ :: _, h => by simp [entriesBeq] at h
  | _ :: _, [], h => by simp [entriesBeq] at h
theorem elemsBeq_sound : ∀ xs ys : List (Option Val), elemsBeq xs ys = true → xs = ys
  | [], [], _ => rfl
  | none :: xs, none :: ys, h => by
    simp only [elemsBeq] at h
    simp [elemsBeq_sound xs ys h]
  | some v :: xs, some w :: ys, h => by
    simp only [elemsBeq, Bool.and_eq_true] at h
    simp [valBeq_sound v w h.1, elemsBeq_sound xs ys h.2]
  | [], none :: _, h => by simp [elemsBeq] at h
  | [], some _ :: _, h => by simp [elemsBeq] at h
  | none :: _, [], h => by simp [elemsBeq] at h
  | some _ :: _, [], h => by simp [elemsBeq] at h
  | none :: _, some _ :: _, h => by simp [elemsBeq] at h
  | some _ :: _, none :: _, h => by simp [elemsBeq] at h
end

instance : DecidableEq Val := fun a b =>
  if h : valBeq a b = true then isTrue (valBeq_sound a b h)
  else isFalse fun he => h (he ▸ valBeq_refl a)

mutual
/-- Height of a value tree; only used as a fuel bound for the merge. -/
def heightVal : Val → Nat
  | .record _ es => 1 + heightEntries es
  | .arr _ xs => 1 + heightElems xs
  | _ => 0
def heightEntries : List (String × Val) → Nat
  | [] => 0
  | (_, v) :: es => max (heightVal v) (heightEntries es)
def heightElems : List (Option Val) → Nat
  | [] => 0
  | none :: xs => heightElems xs
  | some v :: xs => max (heightVal v) (heightElems xs)
end

/-- The source's `isCollection`: a plain record or an array. `null`,
primitives, the `OMIT` symbol and non-plain objects (`Val.exotic`) are all
rejected, mirroring `value && typeof value === 'object' &&
(value.constructor === Object || value.constructor === null ||
Array.isArray(value))`. -/
def isCollection : Val → Bool
  | .record _ _ => true
  | .arr _ _ => true
  | _ => false

def isArr : Val → Bool
  | .arr _ _ => true
  | _ => false

/-- Identity comparison against the `OMIT` symbol (`value !== OMIT`). -/
def isOmit : Val → Bool
  | .omit => true
  | _ => false

/-- The allocation identifier of a collection (0 for scalars). -/
def topId : Val → Nat
  | .record i _ => i
  | .arr i _ => i
  | _ => 0

def lookupFirst : List (String × Val) → String → Option Val
  | [], _ => none
  | (k, v) :: es, key => if k == key then some v else lookupFirst es key

/-- Enumerable own entries of an array, keyed by canonical index strings,
skipping holes — the view `Object.keys` and property access give. -/
def arrEntries : List (Option Val) → Nat → List (String × Val)
  | [], _ => []
  | none :: xs, i => arrEntries xs (i + 1)
  | some v :: xs, i => (natToString i, v) :: arrEntries xs (i + 1)

def entriesOf : Val → List (String × Val)
  | .record _ es => es
  | .arr _ xs => arrEntries xs 0
  | _ => []

/-- `Object.keys`. -/
def jsKeys (v : Val) : List String := (entriesOf v).map Prod.fst

/-- JavaScript property access `v[key]`: `undefined` when absent. -/
def getKey (v : Val) (key : String) : Val :=
  (lookupFirst (entriesOf v) key).getD Val.undef

/-- JavaScript strict equality `===`: scalars by value, collections by
reference (allocation identifier). -/
def strictEq : Val → Val → Bool
  | .undef, .undef => true
  | .null, .null => true
  | .num a, .num b => a == b
  | .str a, .str b => a == b
  | .bool a, .bool b => a == b
  | .omit, .omit => true
  | .exotic a, .exotic b => a == b
  | .record i _, .record j _ => i == j
  | .arr i _, .arr j _ => i == j
  | _, _ => false

/-- The source's `shallowEqual`: same number of own keys, and for every
key of `current`, `current[key] === next[key]`. -/
def shallowEqual (current next : Val) : Bool :=
  ((jsKeys current).length == (jsKeys next).length) &&
    (jsKeys current).all fun key => strictEq (getKey current key) (getKey next key)

/-- `Array.prototype.filter` with a key-string predicate: the callback is
skipped on holes and the result is dense. -/
def jsArrayFilter : List (Option Val) → Nat → (String → Bool) → List (Option Val)
  | [], _, _ => []
  | none :: xs, i, p => jsArrayFilter xs (i + 1) p
  | some v :: xs, i, p =>
    if p (natToString i) then some v :: jsArrayFilter xs (i + 1) p
    else jsArrayFilter xs (i + 1) p

/-- The source's `filter` helper: `Array.isArray(collection) ?
collection.filter(predicate) : pickBy(collection, predicate)`, for a
predicate depending only on the key. Allocates a fresh collection with
identifier `σ`. -/
def jsFilter (σ : Nat) (v : Val) (p : String → Bool) : Val :=
  match v with
  | .record _ es => .record σ (es.filter fun e => p e.1)
  | .arr _ xs => .arr σ (jsArrayFilter xs 0 p)
  | other => other

/-- `slice(0, bound)` on an array, allocating a fresh array with
identifier `σ`; `Math.max()` of an empty key list is `-Infinity`, which
`slice` clamps to 0, modelled by `none ↦ 0`. -/
def sliceTo (σ : Nat) (v : Val) (bound : Option Nat) : Val :=
  match v with
  | .arr _ xs => .arr σ (xs.take (bound.getD 0))
  | other => other

def maxNat? : List Nat → Option Nat
  | [] => none
  | x :: xs =>
    match maxNat? xs with
    | none => some x
    | some m => some (max x m)

/-- `Math.max(...Object.keys(filteredNext))` over an entry list. -/
def maxKey (es : List (String × Val)) : Option Nat :=
  maxNat? (es.filterMap fun e => parseIndex e.1)

/-- Property assignment on a record's entry list: overwrite in place or
append. -/
def setRecKey : List (String × Val) → String → Val → List (String × Val)
  | [], k, v => [(k, v)]
  | (k', v') :: es, k, v =>
    if k' == k then (k', v) :: es else (k', v') :: setRecKey es k v

/-- Index assignment on an array: overwrite in range, or extend with holes
and append, exactly as JavaScript index assignment grows an array. -/
def setArrIdx (xs : List (Option Val)) (i : Nat) (v : Val) : List (Option Val) :=
  if i < xs.length then xs.set i (some v)
  else xs ++ List.replicate (i - xs.length) none ++ [some v]

/-- `Object.assign(target, src)`: mutates the target in place (same
identifier), assigning each source entry in order. On an array target
canonical numeric keys become indices. -/
def objAssign : Val → List (String × Val) → Val
  | .record id es, src => .record id (src.foldl (fun acc e => setRecKey acc e.1 e.2) es)
  | .arr id xs, src =>
    .arr id (src.foldl (fun acc e =>
      match parseIndex e.1 with
      | some i => setArrIdx acc i e.2
      | none => acc) xs)
  | other, _ => other

/-- The pairwise merge step of `deepMergeChanges`, i.e. the body of the
`changes.reduce` callback, with an explicit allocation counter `σ` and
fuel. With fuel `f + 1`:
if both sides are collections it builds `filteredCurrent` (keys whose
value in `next` is `OMIT` removed, fresh identifier `σ`), `filteredNext`
(`next`'s entries whose value is not `OMIT`), slices `filteredCurrent` to
`Math.max(...Object.keys(filteredNext))` when both are arrays (fresh
identifier `σ + 1`), merges every `filteredNext` entry recursively against
`current[key]`, `Object.assign`s the results over `filteredCurrent`, and
returns `current` itself when the result is `shallowEqual` to it;
otherwise `next` is returned verbatim. -/
def pmergeF : Nat → Nat → Val → Val → Val × Nat
  | 0, σ, _, next => (next, σ)
  | fuel + 1, σ, current, next =>
    if isCollection current && isCollection next then
      let fn := (entriesOf next).filter fun e => !isOmit e.2
      let fc0 := jsFilter σ current fun k => !isOmit (getKey next k)
      let fc := if isArr current && isArr next then sliceTo (σ + 1) fc0 (maxKey fn) else fc0
      let σ₂ := if isArr current && isArr next then σ + 2 else σ + 1
      let step := fn.foldl (fun acc e =>
        let r := pmergeF fuel acc.2 (getKey current e.1) e.2
        (acc.1 ++ [(e.1, r.1)], r.2)) (([] : List (String × Val)), σ₂)
      let merged := objAssign fc step.1
      if shallowEqual current merged then (current, step.2) else (merged, step.2)
    else (next, σ)

/-- The `merged` collection built inside a collection-vs-collection
pairwise merge (before the `shallowEqual` short-circuit decides whether to
discard it), together with the final allocation counter. -/
def mergedOfF (fuel σ : Nat) (current next : Val) : Val × Nat :=
  let fn := (entriesOf next).filter fun e => !isOmit e.2
  let fc0 := jsFilter σ current fun k => !isOmit (getKey next k)
  let fc := if isArr current && isArr next then sliceTo (σ + 1) fc0 (maxKey fn) else fc0
  let σ₂ := if isArr current && isArr next then σ + 2 else σ + 1
  let step := fn.foldl (fun acc e =>
    let r := pmergeF fuel acc.2 (getKey current e.1) e.2
    (acc.1 ++ [(e.1, r.1)], r.2)) (([] : List (String × Val)), σ₂)
  (objAssign fc step.1, step.2)

theorem pmergeF_succ (fuel σ : Nat) (current next : Val) :
    pmergeF (fuel + 1) σ current next =
      if isCollection current && isCollection next then
        (if shallowEqual current (mergedOfF fuel σ current next).1 then
          (current, (mergedOfF fuel σ current next).2)
        else mergedOfF fuel σ current next)
      else (next, σ) := by
  simp only [pmergeF, mergedOfF]

/-- The pairwise merge with sufficient fuel: `deepMergeChanges(current,
next)` for a single changes argument. -/
def pmergeC (σ : Nat) (current next : Val) : Val × Nat :=
  pmergeF (heightVal next + 1) σ current next

/-- The built `merged` collection of `pmergeC`. -/
def mergedOf (σ : Nat) (current next : Val) : Val × Nat :=
  mergedOfF (heightVal next) σ current next

/-- `deepMergeChanges(current, ...changes)`: the left fold of the pairwise
merge over the changes list (`changes.reduce`), threading the allocation
counter. -/
def deepMergeChangesC (σ : Nat) (current : Val) (changes : List Val) : Val × Nat :=
  changes.foldl (fun acc next => pmergeC acc.2 acc.1 next) (current, σ)

mutual
/-- Deep structural equality, blind to allocation identifiers: records by
key set and pointwise values, arrays by length and pointwise elements
(holes read as `undefined`), scalars by value, non-plain objects by
identity. -/
def deepEqual : Val → Val → Bool
  | .record _ es, .record _ fs =>
    ((es.map Prod.fst).all fun k => (fs.map Prod.fst).contains k) &&
    (((fs.map Prod.fst).all fun k => (es.map Prod.fst).contains k) &&
      deepEqualEntries es fs)
  | .arr _ xs, .arr _ ys => deepEqualElems xs ys
  | .undef, .undef => true
  | .null, .null => true
  | .num a, .num b => a == b
  | .str a, .str b => a == b
  | .bool a, .bool b => a == b
  | .omit, .omit => true
  | .exotic a, .exotic b => a == b
  | _, _ => false
def deepEqualEntries : List (String × Val) → List (String × Val) → Bool
  | [], _ => true
  | (k, v) :: es, fs => deepEqual v ((lookupFirst fs k).getD .undef) && deepEqualEntries es fs
def deepEqualElems : List (Option Val) → List (Option Val) → Bool
  | [], [] => true
  | none :: xs, none :: ys => deepEqualElems xs ys
  | none :: xs, some w :: ys => (w == Val.undef) && deepEqualElems xs ys
  | some v :: xs, none :: ys => (v == Val.undef) && deepEqualElems xs ys
  | some v :: xs, some w :: ys => deepEqual v w && deepEqualElems xs ys
  | _, _ => false
end

mutual
/-- The largest allocation identifier occurring in a value. -/
def maxId : Val → Nat
  | .record i es => max i (maxIdEntries es)
  | .arr i xs => max i (maxIdElems xs)
  | _ => 0
def maxIdEntries : List (String × Val) → Nat
  | [] => 0
  | (_, v) :: es => max (maxId v) (maxIdEntries es)
def maxIdElems : List (Option Val) → Nat
  | [] => 0
  | none :: xs => maxIdElems xs
  | some v :: xs => max (maxId v) (maxIdElems xs)
end

mutual
/-- Does the `OMIT` sentinel occur anywhere in a value? -/
def containsOmit : Val → Bool
  | .omit => true
  | .record _ es => containsOmitEntries es
  | .arr _ xs => containsOmitElems xs
  | _ => false
def containsOmitEntries : List (String × Val) → Bool
  | [] => false
  | (_, v) :: es => containsOmit v || containsOmitEntries es
def containsOmitElems : List (Option Val) → Bool
  | [] => false
  | none :: xs => containsOmitElems xs
  | some v :: xs => containsOmit v || containsOmitElems xs
end

mutual
/-- Does the value contain no Sequence (array) at any depth? -/
def noSeq : Val → Bool
  | .record _ es => noSeqEntries es
  | .arr _ _ => false
  | _ => true
def noSeqEntries : List (String × Val) → Bool
  | [] => true
  | (_, v) :: es => noSeq v && noSeqEntries es
end

def nodupKeys : List String → Bool
  | [] => true
  | k :: ks => !(ks.contains k) && nodupKeys ks

mutual
/-- Well-formedness: every record in the value has pairwise distinct keys,
as JavaScript objects always do. -/
def wfRecords : Val → Bool
  | .record _ es => nodupKeys (es.map Prod.fst) && wfEntries es
  | .arr _ xs => wfElems xs
  | _ => true
def wfEntries : List (String × Val) → Bool
  | [] => true
  | (_, v) :: es => wfRecords v && wfEntries es
def wfElems : List (Option Val) → Bool
  | [] => true
  | none :: xs => wfElems xs
  | some v :: xs => wfRecords v && wfElems xs
end

mutual
/-- Does `v` occur as a subvalue (the value itself, a record entry value,
or an array element, recursively) of the second argument? -/
def occursIn (v : Val) : Val → Bool
  | .record i es => valBeq v (.record i es) || occursInEntries v es
  | .arr i xs => valBeq v (.arr i xs) || occursInElems v xs
  | t => valBeq v t
def occursInEntries (v : Val) : List (String × Val) → Bool
  | [] => false
  | (_, w) :: es => occursIn v w || occursInEntries v es
def occursInElems (v : Val) : List (Option Val) → Bool
  | [] => false
  | none :: xs => occursInElems v xs
  | some w :: xs => occursIn v w || occursInElems v xs
end

/-- Shallow equality in the sense spelled out by the specification: same
key set, same number of keys, and identical (`===`) values at every key of
either side. This is the comparison the spec describes; the source's
`shallowEqual` checks only the key count and `current`'s keys. -/
def specShallowEqual (current merged : Val) : Bool :=
  ((jsKeys current).all fun k => (jsKeys merged).contains k) &&
  ((jsKeys merged).all fun k => (jsKeys current).contains k) &&
  ((jsKeys current).length == (jsKeys merged).length) &&
  ((jsKeys current).all fun k => strictEq (getKey current k) (getKey merged k)) &&
  ((jsKeys merged).all fun k => strictEq (getKey current k) (getKey merged k))

/-- The array-vs-array combination procedure as the specification words
it: truncate `filteredCurrent` to length `max(numeric keys of
filteredNext) + 1` (or to length 0 when there is no numeric key), then
assign the recursively merged values over it by index. Allocation
identifiers are threaded exactly as in `mergedOfF` so that the two
procedures can be compared on the nose. -/
def specArrayMergedF (fuel σ : Nat) (current next : Val) : Val × Nat :=
  let fn := (entriesOf next).filter fun e => !isOmit e.2
  let fc0 := jsFilter σ current fun k => !isOmit (getKey next k)
  let bound : Nat :=
    match maxKey fn with
    | some m => m + 1
    | none => 0
  let fc := sliceTo (σ + 1) fc0 (some bound)
  let σ₂ := σ + 2
  let step := fn.foldl (fun acc e =>
    let r := pmergeF fuel acc.2 (getKey current e.1) e.2
    (acc.1 ++ [(e.1, r.1)], r.2)) (([] : List (String × Val)), σ₂)
  (objAssign fc step.1, step.2)

/-- The specification's array-pair procedure with sufficient fuel. -/
def specArrayMerged (σ : Nat) (current next : Val) : Val × Nat :=
  specArrayMergedF (heightVal next) σ current next

/-!
Model validation: the embedding reproduces the repository's own test suite
(`src/lib/index.spec.js`) and the README example.
-/

theorem modelCheck_unchanged :
    (pmergeC 3 (.record 1 [("x", .num 1), ("y", .num 2)]) (.record 2 [("y", .num 2)])).1 =
      .record 1 [("x", .num 1), ("y", .num 2)] := rfl

theorem modelCheck_removes :
    deepEqual
      (pmergeC 3 (.record 1 [("x", .num 1), ("y", .num 1), ("z", .num 1)])
        (.record 2 [("y", .omit)])).1
      (.record 0 [("x", .num 1), ("z", .num 1)]) = true := by decide

theorem modelCheck_replacesPrimitives :
    deepEqual
      (pmergeC 3 (.record 1 [("x", .num 1), ("y", .num 1), ("z", .num 1)])
        (.record 2 [("z", .num 2)])).1
      (.record 0 [("x", .num 1), ("y", .num 1), ("z", .num 2)]) = true := by decide

theorem modelCheck_replacesArrays :
    deepEqual
      (pmergeC 5 (.record 1 [("x", .num 1),
          ("y", .arr 2 [some (.num 1), some (.num 2), some (.num 3)]), ("z", .num 1)])
        (.record 3 [("y", .arr 4 [some (.num 4)])])).1
      (.record 0 [("x", .num 1), ("y", .arr 0 [some (.num 4)]), ("z", .num 1)]) = true := by
  decide

def compositeCur : Val :=
  .record 1 [
    ("x", .record 2 [
      ("a", .record 3 [("x", .num 1), ("y", .num 1)]),
      ("b", .record 4 [("x", .num 1),
        ("y", .arr 5 [
          some (.record 6 [("f", .num 1), ("g", .num 2), ("h", .arr 7 [])]),
          some (.record 8 [("f", .num 3), ("g", .num 4),
            ("h", .arr 9 [some (.num 5), some (.num 6)])])])]),
      ("c", .record 10 [])]),
    ("y", .arr 11 [some (.num 1), some (.num 2), some (.num 3)]),
    ("z", .arr 12 [some (.record 13 [("a", .num 1)]), some (.record 14 [("a", .num 1)])])]

def compositeChg : Val :=
  .record 20 [
    ("x", .record 21 [
      ("a", .record 22 [("foo", .str "bar"), ("y", .omit)]),
      ("b", .record 23 [("y", .record 24 [
        ("1", .record 25 [("f", .num 4)]),
        ("2", .record 26 [("f", .num 5), ("g", .num 6), ("h", .arr 27 [])])])])]),
    ("y", .record 28 [("1", .num 2)]),
    ("z", .arr 29 [some (.record 30 [("a", .num 1)]), some (.record 31 [("a", .num 1)])])]

def compositeRes : Val := (pmergeC 40 compositeCur compositeChg).1

theorem modelCheck_composite :
    deepEqual compositeRes
      (.record 0 [
        ("x", .record 0 [
          ("a", .record 0 [("x", .num 1), ("foo", .str "bar")]),
          ("b", .record 0 [("x", .num 1),
            ("y", .arr 0 [
              some (.record 0 [("f", .num 1), ("g", .num 2), ("h", .arr 0 [])]),
              some (.record 0 [("f", .num 4), ("g", .num 4),
                ("h", .arr 0 [some (.num 5), some (.num 6)])]),
              some (.record 0 [("f", .num 5), ("g", .num 6), ("h", .arr 0 [])])])]),
          ("c", .record 0 [])]),
        ("y", .arr 0 [some (.num 1), some (.num 2), some (.num 3)]),
        ("z", .arr 0 [some (.record 0 [("a", .num 1)]), some (.record 0 [("a", .num 1)])])]) =
      true := by decide

theorem modelCheck_composite_sharing :
    getKey (getKey compositeRes "x") "c" = .record 10 [] ∧
    getKey compositeRes "y" = .arr 11 [some (.num 1), some (.num 2), some (.num 3)] ∧
    getKey compositeRes "z" =
      .arr 12 [some (.record 13 [("a", .num 1)]), some (.record 14 [("a", .num 1)])] := by
  refine ⟨rfl, rfl, rfl⟩

/-!
Canonical decimal index strings: round-trip and injectivity lemmas.
-/

theorem digitsAux_lt10 : ∀ f n d, d ∈ digitsAux f n → d < 10 := by
  intro f
  induction f with
  | zero => intro n d h; simp [digitsAux] at h
  | succ f ih =>
    intro n d h
    cases n with
    | zero => simp [digitsAux] at h
    | succ n =>
      simp only [digitsAux, List.mem_cons] at h
      rcases h with h | h
      · subst h; exact Nat.mod_lt _ (by norm_num)
      · exact ih _ _ h

theorem undigits_digitsAux : ∀ f n, n ≤ f → undigits (digitsAux f n) = n := by
  intro f
  induction f with
  | zero => intro n h; interval_cases n; rfl
  | succ f ih =>
    intro n h
    cases n with
    | zero => rfl
    | succ n =>
      have hdiv : (n + 1) / 10 ≤ f := by
        have := Nat.div_lt_self (Nat.succ_pos n) (by norm_num : 1 < 10)
        omega
      simp only [digitsAux, undigits, ih _ hdiv]
      omega

theorem charDigit_digitChar : ∀ d, d < 10 → charDigit (digitChar d) = some d := by
  intro d h
  interval_cases d <;> decide

theorem mapDigits_map : ∀ l : List Nat, (∀ d ∈ l, d < 10) →
    mapDigits (l.map digitChar) = some l := by
  intro l
  induction l with
  | nil => intro _; rfl
  | cons d ds ih =>
    intro h
    have h1 := charDigit_digitChar d (h d (by simp))
    have h2 := ih fun x hx => h x (by simp [hx])
    simp [mapDigits, h1, h2]

theorem parseIndex_natToString : ∀ n, parseIndex (natToString n) = some n := by
  intro n
  cases n with
  | zero => decide
  | succ n =>
    have hdata : (natToString (n + 1)).data = ((natDigits (n + 1)).map digitChar).reverse := rfl
    have hmapM : mapDigits ((natDigits (n + 1)).map digitChar) = some (natDigits (n + 1)) :=
      mapDigits_map _ (fun d hd => digitsAux_lt10 _ _ _ hd)
    have hund : undigits (natDigits (n + 1)) = n + 1 := undigits_digitsAux _ _ le_rfl
    simp only [parseIndex, hdata, List.reverse_reverse, hmapM, hund, beq_self_eq_true, if_true]

theorem parseIndex_some_eq : ∀ s i, parseIndex s = some i → s = natToString i := by
  intro s i h
  unfold parseIndex at h
  split at h
  case h_2 => exact absurd h (by simp)
  case h_1 ds hm =>
    split at h
    case isFalse => exact absurd h (by simp)
    case isTrue hc =>
      have hi : undigits ds = i := Option.some.inj h
      subst hi
      exact (eq_of_beq hc).symm

theorem natToString_inj : ∀ a b, natToString a = natToString b → a = b := by
  intro a b h
  have ha := parseIndex_natToString a
  have hb := parseIndex_natToString b
  rw [h, hb] at ha
  exact (Option.some.inj ha).symm

/-!
Fuel elimination: the merge is stable once the fuel exceeds the height of
the changes value, so all reasoning can happen at the `pmergeC` level.
-/

theorem pmergeF_not_coll (fuel σ : Nat) (c n : Val)
    (h : (isCollection c && isCollection n) = false) : pmergeF fuel σ c n = (n, σ) := by
  cases fuel with
  | zero => rfl
  | succ fuel => rw [pmergeF_succ, h]; simp

theorem isCollection_height_pos (n : Val) (h : isCollection n = true) : 1 ≤ heightVal n := by
  match n with
  | .record i es => exact Nat.le_add_right 1 _
  | .arr i xs => exact Nat.le_add_right 1 _
  | .undef | .null | .num _ | .str _ | .bool _ | .omit | .exotic _ => simp [isCollection] at h

theorem heightEntries_of_mem : ∀ (es : List (String × Val)) (e : String × Val), e ∈ es →
    heightVal e.2 ≤ heightEntries es := by
  intro es
  induction es with
  | nil => intro e he; simp at he
  | cons f es ih =>
    intro e he
    obtain ⟨f1, f2⟩ := f
    rcases List.mem_cons.mp he with h | h
    · subst h
      exact Nat.le_max_left _ _
    · exact le_trans (ih e h) (Nat.le_max_right _ _)

theorem mem_arrEntries_some : ∀ (xs : List (Option Val)) i (e : String × Val),
    e ∈ arrEntries xs i → some e.2 ∈ xs := by
  intro xs
  induction xs with
  | nil => intro i e h; simp [arrEntries] at h
  | cons x xs ih =>
    intro i e h
    cases x with
    | none => exact List.mem_cons_of_mem _ (ih _ _ h)
    | some w =>
      rcases List.mem_cons.mp h with h | h
      · rw [h]
        exact List.mem_cons_self _ _
      · exact List.mem_cons_of_mem _ (ih _ _ h)

theorem heightElems_of_mem : ∀ (xs : List (Option Val)) v, some v ∈ xs →
    heightVal v ≤ heightElems xs := by
  intro xs
  induction xs with
  | nil => intro v h; simp at h
  | cons x xs ih =>
    intro v h
    cases x with
    | none =>
      have h2 : some v ∈ xs := by
        rcases List.mem_cons.mp h with h | h
        · exact absurd h (by simp)
        · exact h
      exact ih v h2
    | some w =>
      rcases List.mem_cons.mp h with h | h
      · have hv : v = w := Option.some.inj h
        subst hv
        exact Nat.le_max_left _ _
      · exact le_trans (ih v h) (Nat.le_max_right _ _)

theorem entriesOf_height_lt : ∀ (n : Val) (e : String × Val), e ∈ entriesOf n →
    heightVal e.2 < heightVal n := by
  intro n e h
  match n with
  | .record i es =>
    have := heightEntries_of_mem es e h
    show heightVal e.2 < 1 + heightEntries es
    omega
  | .arr i xs =>
    have := heightElems_of_mem xs e.2 (mem_arrEntries_some xs 0 e h)
    show heightVal e.2 < 1 + heightElems xs
    omega
  | .undef | .null | .num _ | .str _ | .bool _ | .omit | .exotic _ => simp [entriesOf] at h

theorem foldl_congr_mem {α β : Type} : ∀ (l : List α) (f g : β → α → β) (i : β),
    (∀ b a, a ∈ l → f b a = g b a) → l.foldl f i = l.foldl g i := by
  intro l
  induction l with
  | nil => intro f g i _; rfl
  | cons a l ih =>
    intro f g i h
    simp only [List.foldl_cons]
    rw [h i a (List.mem_cons_self _ _)]
    exact ih f g _ fun b x hx => h b x (List.mem_cons_of_mem _ hx)

theorem pmergeF_stable : ∀ f g σ (c n : Val), heightVal n < f → heightVal n < g →
    pmergeF f σ c n = pmergeF g σ c n := by
  intro f
  induction f with
  | zero => intro g σ c n hf; omega
  | succ f ih =>
    intro g σ c n hf hg
    by_cases hcoll : (isCollection c && isCollection n) = true
    · have hn : isCollection n = true := ((Bool.and_eq_true _ _).mp hcoll).2
      have h1 := isCollection_height_pos n hn
      obtain ⟨g', rfl⟩ : ∃ g', g = g' + 1 := ⟨g - 1, by omega⟩
      rw [pmergeF_succ, pmergeF_succ]
      have hm : mergedOfF f σ c n = mergedOfF g' σ c n := by
        unfold mergedOfF
        have hfold :
            ((entriesOf n).filter fun e => !isOmit e.2).foldl (fun acc e =>
                let r := pmergeF f acc.2 (getKey c e.1) e.2
                (acc.1 ++ [(e.1, r.1)], r.2)) (([] : List (String × Val)),
                  if isArr c && isArr n then σ + 2 else σ + 1) =
              ((entriesOf n).filter fun e => !isOmit e.2).foldl (fun acc e =>
                let r := pmergeF g' acc.2 (getKey c e.1) e.2
                (acc.1 ++ [(e.1, r.1)], r.2)) (([] : List (String × Val)),
                  if isArr c && isArr n then σ + 2 else σ + 1) := by
          apply foldl_congr_mem
          intro b e he
          have hlt : heightVal e.2 < heightVal n :=
            entriesOf_height_lt n e (List.mem_of_mem_filter he)
          simp only []
          rw [ih g' b.2 (getKey c e.1) e.2 (by omega) (by omega)]
        simp only [hfold]
      rw [hm]
    · have hcf : (isCollection c && isCollection n) = false := by
        revert hcoll; cases (isCollection c && isCollection n) <;> simp
      rw [pmergeF_not_coll _ _ _ _ hcf, pmergeF_not_coll _ _ _ _ hcf]

theorem pmergeC_eq (σ : Nat) (c n : Val) :
    pmergeC σ c n =
      if isCollection c && isCollection n then
        (if shallowEqual c (mergedOf σ c n).1 then (c, (mergedOf σ c n).2)
        else mergedOf σ c n)
      else (n, σ) := by
  unfold pmergeC mergedOf
  rw [pmergeF_succ]

/-- The recursive per-entry merge of `filteredNext` (`mapValues(filteredNext,
(value, key) => deepMergeChanges(current[key], value))`), in direct
recursion form threading the allocation counter. -/
def mapMergeC (current : Val) : Nat → List (String × Val) → List (String × Val) × Nat
  | σ, [] => ([], σ)
  | σ, e :: es =>
    let r := pmergeC σ (getKey current e.1) e.2
    let rest := mapMergeC current r.2 es
    ((e.1, r.1) :: rest.1, rest.2)

theorem foldl_step_eq_mapMergeC : ∀ (l : List (String × Val)) (c : Val) (f : Nat)
    (acc : List (String × Val)) (σ : Nat), (∀ e ∈ l, heightVal e.2 < f) →
    (l.foldl (fun acc e =>
        let r := pmergeF f acc.2 (getKey c e.1) e.2
        (acc.1 ++ [(e.1, r.1)], r.2)) (acc, σ)) =
      (acc ++ (mapMergeC c σ l).1, (mapMergeC c σ l).2) := by
  intro l
  induction l with
  | nil => intro c f acc σ _; simp [mapMergeC]
  | cons e es ih =>
    intro c f acc σ h
    have he : heightVal e.2 < f := h e (List.mem_cons_self _ _)
    have hstep : pmergeF f σ (getKey c e.1) e.2 = pmergeC σ (getKey c e.1) e.2 := by
      unfold pmergeC
      exact pmergeF_stable _ _ _ _ _ he (by omega)
    simp only [List.foldl_cons, hstep]
    rw [ih c f _ _ fun x hx => h x (List.mem_cons_of_mem _ hx)]
    simp [mapMergeC]

theorem mergedOf_eq (σ : Nat) (c n : Val) :
    mergedOf σ c n =
      (objAssign
        (if isArr c && isArr n then
          sliceTo (σ + 1) (jsFilter σ c fun k => !isOmit (getKey n k))
            (maxKey ((entriesOf n).filter fun e => !isOmit e.2))
        else jsFilter σ c fun k => !isOmit (getKey n k))
        (mapMergeC c (if isArr c && isArr n then σ + 2 else σ + 1)
          ((entriesOf n).filter fun e => !isOmit e.2)).1,
      (mapMergeC c (if isArr c && isArr n then σ + 2 else σ + 1)
        ((entriesOf n).filter fun e => !isOmit e.2)).2) := by
  unfold mergedOf mergedOfF
  have hfold := foldl_step_eq_mapMergeC ((entriesOf n).filter fun e => !isOmit e.2) c
    (heightVal n) [] (if isArr c && isArr n then σ + 2 else σ + 1) (by
      intro e he
      exact entriesOf_height_lt n e (List.mem_of_mem_filter he))
  simp only [hfold, List.nil_append]

/-!
Lookup and assignment characterization on record entry lists.
-/

theorem strictEq_refl : ∀ v : Val, strictEq v v = true := by
  intro v
  cases v <;> simp [strictEq]

theorem lookupFirst_filter_key (p : String → Bool) : ∀ (es : List (String × Val)) k,
    lookupFirst (es.filter fun e => p e.1) k = if p k then lookupFirst es k else none := by
  intro es
  induction es with
  | nil => intro k; simp [lookupFirst]
  | cons e es ih =>
    intro k
    by_cases hk : (e.1 == k) = true
    · have hk' : e.1 = k := eq_of_beq hk
      subst hk'
      by_cases hp : p e.1 = true
      · simp [List.filter_cons, hp, lookupFirst, ih]
      · have hp' : p e.1 = false := by revert hp; cases p e.1 <;> simp
        simp [List.filter_cons, hp', lookupFirst, ih]
    · have hk' : (e.1 == k) = false := by revert hk; cases e.1 == k <;> simp
      by_cases hp : p e.1 = true
      · cases e
        simp_all [List.filter_cons, lookupFirst, ih]
      · have hp' : p e.1 = false := by revert hp; cases p e.1 <;> simp
        cases e
        simp_all [List.filter_cons, lookupFirst, ih]

theorem lookupFirst_setRecKey : ∀ (es : List (String × Val)) k v k',
    lookupFirst (setRecKey es k v) k' =
      if k == k' then some v else lookupFirst es k' := by
  intro es
  induction es with
  | nil => intro k v k'; simp [setRecKey, lookupFirst]
  | cons e es ih =>
    intro k v k'
    obtain ⟨ek, ev⟩ := e
    by_cases h1 : (ek == k) = true
    · have h1' : ek = k := eq_of_beq h1
      subst h1'
      simp only [setRecKey, if_pos h1, lookupFirst]
      by_cases h2 : (ek == k') = true <;> simp [h2]
    · have h1' : (ek == k) = false := by revert h1; cases ek == k <;> simp
      simp only [setRecKey, h1', Bool.false_eq_true, if_false, lookupFirst]
      by_cases h2 : (ek == k') = true
      · have h2' : ek = k' := eq_of_beq h2
        subst h2'
        have : (k == ek) = false := by
          rw [beq_eq_false_iff_ne]
          intro he
          subst he
          simp at h1'
        simp [this, h2]
      · have h2' : (ek == k') = false := by revert h2; cases ek == k' <;> simp
        simp [h2', ih]

theorem lookupFirst_append : ∀ (es fs : List (String × Val)) k,
    lookupFirst (es ++ fs) k =
      match lookupFirst es k with
      | some v => some v
      | none => lookupFirst fs k := by
  intro es
  induction es with
  | nil => intro fs k; simp [lookupFirst]
  | cons e es ih =>
    intro fs k
    by_cases h : (e.1 == k) = true
    · cases e; simp_all [lookupFirst]
    · have h' : (e.1 == k) = false := by revert h; cases e.1 == k <;> simp
      cases e; simp_all [lookupFirst]

/-- Value of the last entry of `src` carrying key `k`: the value
`Object.assign` leaves at `k` when assigning `src` in order. -/
def lookupLast (src : List (String × Val)) (k : String) : Option Val :=
  lookupFirst src.reverse k

theorem lookupLast_cons : ∀ (e : String × Val) src k,
    lookupLast (e :: src) k =
      match lookupLast src k with
      | some v => some v
      | none => if e.1 == k then some e.2 else none := by
  intro e src k
  unfold lookupLast
  simp only [List.reverse_cons, lookupFirst_append]
  cases lookupFirst src.reverse k <;> simp [lookupFirst]

theorem lookupFirst_foldl_setRecKey : ∀ (src es : List (String × Val)) k,
    lookupFirst (src.foldl (fun acc e => setRecKey acc e.1 e.2) es) k =
      match lookupLast src k with
      | some v => some v
      | none => lookupFirst es k := by
  intro src
  induction src with
  | nil => intro es k; simp [lookupLast, lookupFirst]
  | cons e src ih =>
    intro es k
    simp only [List.foldl_cons, ih, lookupLast_cons, lookupFirst_setRecKey]
    cases lookupLast src k <;> simp
    by_cases h : e.1 = k <;> simp [h]

theorem containsStr_iff (l : List String) (k : String) : l.contains k = true ↔ k ∈ l :=
  List.elem_iff

theorem keys_setRecKey : ∀ (es : List (String × Val)) k v,
    (setRecKey es k v).map Prod.fst =
      if k ∈ es.map Prod.fst then es.map Prod.fst
      else es.map Prod.fst ++ [k] := by
  intro es
  induction es with
  | nil => intro k v; simp [setRecKey]
  | cons e es ih =>
    intro k v
    obtain ⟨ek, ev⟩ := e
    by_cases h : ek = k
    · subst h
      simp [setRecKey, beq_self_eq_true]
    · have h' : (ek == k) = false := beq_eq_false_iff_ne.mpr h
      simp only [setRecKey, h', Bool.false_eq_true, if_false, List.map_cons, ih]
      have hne : ¬(k = ek) := fun he => h he.symm
      by_cases hc : k ∈ es.map Prod.fst
      · simp [hc, List.mem_cons, hne]
      · simp [hc, List.mem_cons, hne]

theorem nodupKeys_iff : ∀ l : List String, nodupKeys l = true ↔ l.Nodup := by
  intro l
  induction l with
  | nil => simp [nodupKeys]
  | cons k ks ih =>
    simp [nodupKeys, ih, containsStr_iff]

theorem nodup_setRecKey : ∀ (es : List (String × Val)) k v,
    nodupKeys (es.map Prod.fst) = true →
    nodupKeys ((setRecKey es k v).map Prod.fst) = true := by
  intro es k v h
  rw [keys_setRecKey]
  by_cases hc : k ∈ es.map Prod.fst
  · simp [hc, h]
  · simp only [hc, if_false]
    rw [nodupKeys_iff] at h ⊢
    simp [List.nodup_append, h, hc]

theorem nodup_foldl_setRecKey : ∀ (src es : List (String × Val)),
    nodupKeys (es.map Prod.fst) = true →
    nodupKeys ((src.foldl (fun acc e => setRecKey acc e.1 e.2) es).map Prod.fst) = true := by
  intro src
  induction src with
  | nil => intro es h; exact h
  | cons e src ih =>
    intro es h
    exact ih _ (nodup_setRecKey es e.1 e.2 h)

theorem mem_keys_setRecKey : ∀ (es : List (String × Val)) k v k',
    k' ∈ (setRecKey es k v).map Prod.fst ↔ (k' ∈ es.map Prod.fst ∨ k' = k) := by
  intro es k v k'
  rw [keys_setRecKey]
  by_cases hc : k ∈ es.map Prod.fst
  · simp only [hc, if_true]
    constructor
    · exact Or.inl
    · intro h
      rcases h with h | h
      · exact h
      · subst h; exact hc
  · simp [hc, List.mem_append]

theorem mem_keys_foldl_setRecKey : ∀ (src es : List (String × Val)) k,
    (k ∈ ((src.foldl (fun acc e => setRecKey acc e.1 e.2) es).map Prod.fst)) ↔
      (k ∈ es.map Prod.fst ∨ k ∈ src.map Prod.fst) := by
  intro src
  induction src with
  | nil => intro es k; simp
  | cons e src ih =>
    intro es k
    simp only [List.foldl_cons, ih, mem_keys_setRecKey, List.map_cons, List.mem_cons]
    tauto

theorem lookupLast_none_iff : ∀ (src : List (String × Val)) k,
    lookupLast src k = none ↔ k ∉ src.map Prod.fst := by
  intro src k
  induction src with
  | nil => simp [lookupLast, lookupFirst]
  | cons e src ih =>
    rw [lookupLast_cons]
    cases h : lookupLast src k with
    | some v =>
      rw [h] at ih
      simp only []
      constructor
      · intro hc; exact absurd hc (by simp)
      · intro hc
        exfalso
        have : k ∈ src.map Prod.fst := by
          by_contra hm
          exact absurd (ih.mpr hm) (by simp)
        exact hc (by simp [List.mem_cons, this])
    | none =>
      rw [h] at ih
      have ihm : k ∉ src.map Prod.fst := ih.mp rfl
      by_cases hk : e.1 = k
      · subst hk
        simp [beq_self_eq_true]
      · have hk' : (e.1 == k) = false := beq_eq_false_iff_ne.mpr hk
        simp only [hk', Bool.false_eq_true, if_false, List.map_cons, List.mem_cons]
        constructor
        · intro _ hor
          rcases hor with hor | hor
          · exact hk hor.symm
          · exact ihm hor
        · intro _; trivial

/-!
Allocation-counter monotonicity and the shape of the recursively merged
entry list.
-/

theorem height_zero_not_coll (n : Val) (h : heightVal n = 0) : isCollection n = false := by
  by_cases hc : isCollection n = true
  · have := isCollection_height_pos n hc
    omega
  · revert hc; cases isCollection n <;> simp

theorem mapMergeC_sigma_le_aux : ∀ (l : List (String × Val)) (c : Val) (σ : Nat),
    (∀ e ∈ l, ∀ σ', σ' ≤ (pmergeC σ' (getKey c e.1) e.2).2) →
    σ ≤ (mapMergeC c σ l).2 := by
  intro l
  induction l with
  | nil => intro c σ _; exact le_rfl
  | cons e es ih =>
    intro c σ h
    have h1 := h e (List.mem_cons_self _ _) σ
    have h2 := ih c (pmergeC σ (getKey c e.1) e.2).2 fun x hx => h x (List.mem_cons_of_mem _ hx)
    simp only [mapMergeC]
    omega

theorem pmergeC_sigma_le : ∀ (h : Nat) (n : Val), heightVal n ≤ h →
    ∀ σ (c : Val), σ ≤ (pmergeC σ c n).2 := by
  intro h
  induction h with
  | zero =>
    intro n hn σ c
    have hc : isCollection n = false := height_zero_not_coll n (by omega)
    rw [pmergeC_eq]
    simp [hc]
  | succ h ih =>
    intro n hn σ c
    rw [pmergeC_eq]
    by_cases hcoll : (isCollection c && isCollection n) = true
    · rw [if_pos hcoll, mergedOf_eq]
      have hrec : ∀ e ∈ (entriesOf n).filter fun e => !isOmit e.2, ∀ σ',
          σ' ≤ (pmergeC σ' (getKey c e.1) e.2).2 := by
        intro e he σ'
        have hlt : heightVal e.2 < heightVal n :=
          entriesOf_height_lt n e (List.mem_of_mem_filter he)
        exact ih e.2 (by omega) σ' (getKey c e.1)
      have hm := mapMergeC_sigma_le_aux ((entriesOf n).filter fun e => !isOmit e.2) c
        (if isArr c && isArr n then σ + 2 else σ + 1) hrec
      by_cases hs : shallowEqual c (objAssign
          (if isArr c && isArr n then
            sliceTo (σ + 1) (jsFilter σ c fun k => !isOmit (getKey n k))
              (maxKey ((entriesOf n).filter fun e => !isOmit e.2))
          else jsFilter σ c fun k => !isOmit (getKey n k))
          (mapMergeC c (if isArr c && isArr n then σ + 2 else σ + 1)
            ((entriesOf n).filter fun e => !isOmit e.2)).1) = true
      · rw [if_pos hs]
        by_cases ha : (isArr c && isArr n) = true
        · rw [ha] at hm ⊢; simp at hm ⊢; omega
        · have ha' : (isArr c && isArr n) = false := by
            revert ha; cases isArr c && isArr n <;> simp
          rw [ha'] at hm ⊢; simp at hm ⊢; omega
      · rw [if_neg hs]
        by_cases ha : (isArr c && isArr n) = true
        · rw [ha] at hm ⊢; simp at hm ⊢; omega
        · have ha' : (isArr c && isArr n) = false := by
            revert ha; cases isArr c && isArr n <;> simp
          rw [ha'] at hm ⊢; simp at hm ⊢; omega
    · have hcf : (isCollection c && isCollection n) = false := by
        revert hcoll; cases isCollection c && isCollection n <;> simp
      simp [hcf]

theorem pmergeC_sigma_le' (σ : Nat) (c n : Val) : σ ≤ (pmergeC σ c n).2 :=
  pmergeC_sigma_le (heightVal n) n le_rfl σ c

theorem mapMergeC_keys (c : Val) : ∀ (l : List (String × Val)) σ,
    ((mapMergeC c σ l).1).map Prod.fst = l.map Prod.fst := by
  intro l
  induction l with
  | nil => intro σ; rfl
  | cons e es ih =>
    intro σ
    simp [mapMergeC, ih]

theorem mapMergeC_mem (c : Val) : ∀ (l : List (String × Val)) σ (e : String × Val),
    e ∈ (mapMergeC c σ l).1 →
    ∃ σ' w, (e.1, w) ∈ l ∧ e.2 = (pmergeC σ' (getKey c e.1) w).1 ∧ σ ≤ σ' := by
  intro l
  induction l with
  | nil => intro σ e h; simp [mapMergeC] at h
  | cons f fs ih =>
    intro σ e h
    simp only [mapMergeC, List.mem_cons] at h
    rcases h with h | h
    · subst h
      exact ⟨σ, f.2, List.mem_cons_self _ _, rfl, le_rfl⟩
    · obtain ⟨σ', w, hw, he, hσ⟩ := ih _ e h
      refine ⟨σ', w, List.mem_cons_of_mem _ hw, he, ?_⟩
      have := pmergeC_sigma_le' σ (getKey c f.1) f.2
      omega

theorem mapMergeC_lookupLast (c : Val) : ∀ (l : List (String × Val)) σ k v,
    lookupLast (mapMergeC c σ l).1 k = some v →
    ∃ σ' w, (k, w) ∈ l ∧ v = (pmergeC σ' (getKey c k) w).1 := by
  intro l σ k v h
  have hmem : (k, v) ∈ (mapMergeC c σ l).1 := by
    unfold lookupLast at h
    have : ∀ (src : List (String × Val)) k v, lookupFirst src k = some v → (k, v) ∈ src := by
      intro src
      induction src with
      | nil => intro k v h; simp [lookupFirst] at h
      | cons e es ihs =>
        intro k v h
        by_cases hk : (e.1 == k) = true
        · rw [lookupFirst, if_pos hk] at h
          have h1 : e.1 = k := eq_of_beq hk
          have h2 : e.2 = v := Option.some.inj h
          have : (k, v) = e := by rw [← h1, ← h2]
          rw [this]
          exact List.mem_cons_self _ _
        · have hk' : (e.1 == k) = false := by revert hk; cases e.1 == k <;> simp
          rw [lookupFirst, hk'] at h
          simp only [Bool.false_eq_true, if_false] at h
          exact List.mem_cons_of_mem _ (ihs k v h)
    have := this _ _ _ h
    exact (List.mem_reverse).mp this
  obtain ⟨σ', w, hw, he, _⟩ := mapMergeC_mem c l σ (k, v) hmem
  exact ⟨σ', w, hw, he⟩

theorem deepMergeChangesC_single (σ : Nat) (c n : Val) :
    deepMergeChangesC σ c [n] = pmergeC σ c n := rfl

theorem shallowEqual_of_same_entries (v w : Val) (hent : entriesOf v = entriesOf w) :
    shallowEqual v w = true := by
  unfold shallowEqual jsKeys getKey
  rw [hent]
  simp only [beq_self_eq_true, Bool.true_and]
  apply List.all_eq_true.mpr
  intro k _
  exact strictEq_refl _

theorem pmergeC_record_empty_changes (σ id jd : Nat) (es : List (String × Val)) :
    (pmergeC σ (.record id es) (.record jd [])).1 = .record id es := by
  rw [pmergeC_eq]
  have hcoll : (isCollection (Val.record id es) && isCollection (Val.record jd [])) = true := rfl
  rw [if_pos hcoll]
  have hmerged : (mergedOf σ (.record id es) (.record jd [])).1 = .record σ es := by
    rw [mergedOf_eq]
    rw [show (isArr (Val.record id es) && isArr (Val.record jd [])) = false from rfl]
    simp only [Bool.false_eq_true, if_false]
    rw [show ((entriesOf (Val.record jd [])).filter fun e => !isOmit e.2) = [] from rfl]
    have hfc : jsFilter σ (Val.record id es)
        (fun k => !isOmit (getKey (Val.record jd []) k)) = .record σ es := by
      show Val.record σ (es.filter fun e => !isOmit (getKey (Val.record jd []) e.1)) =
        Val.record σ es
      congr 1
      apply List.filter_eq_self.mpr
      intro e _
      rfl
    rw [hfc]
    rfl
  rw [hmerged]
  rw [if_pos (shallowEqual_of_same_entries (Val.record id es) (Val.record σ es) rfl)]

theorem pmergeC_record_remove_absent (σ id jd : Nat) (es : List (String × Val)) (k : String)
    (hk : k ∉ es.map Prod.fst) :
    (pmergeC σ (.record id es) (.record jd [(k, .omit)])).1 = .record id es := by
  rw [pmergeC_eq]
  have hcoll :
      (isCollection (Val.record id es) && isCollection (Val.record jd [(k, Val.omit)])) = true :=
    rfl
  rw [if_pos hcoll]
  have hmerged : (mergedOf σ (.record id es) (.record jd [(k, .omit)])).1 = .record σ es := by
    rw [mergedOf_eq]
    rw [show (isArr (Val.record id es) && isArr (Val.record jd [(k, Val.omit)])) = false from rfl]
    simp only [Bool.false_eq_true, if_false]
    rw [show ((entriesOf (Val.record jd [(k, Val.omit)])).filter fun e => !isOmit e.2) = []
      from rfl]
    have hfc : jsFilter σ (Val.record id es)
        (fun key => !isOmit (getKey (Val.record jd [(k, Val.omit)]) key)) = .record σ es := by
      show Val.record σ
          (es.filter fun e => !isOmit (getKey (Val.record jd [(k, Val.omit)]) e.1)) =
        Val.record σ es
      congr 1
      apply List.filter_eq_self.mpr
      intro e he
      have hne : (k == e.1) = false := by
        rw [beq_eq_false_iff_ne]
        intro hh
        exact hk (hh ▸ List.mem_map_of_mem Prod.fst he)
      simp [getKey, entriesOf, lookupFirst, hne, isOmit]
    rw [hfc]
    rfl
  rw [hmerged]
  rw [if_pos (shallowEqual_of_same_entries (Val.record id es) (Val.record σ es) rfl)]

/-!
Claim theorems.
-/

/-- C6: whenever `current` is not a collection or `next` is not a
collection, the pairwise merge returns `next` verbatim (and, being a total
function, never raises an error); `null` is not a collection and non-plain
objects (class instances, dates, maps, sets — `Val.exotic`) are not
collections, so both are replaced wholesale as opaque scalars. -/
theorem c6_non_collection_replaced_verbatim :
    (∀ σ (c n : Val), isCollection c = false ∨ isCollection n = false →
      pmergeC σ c n = (n, σ)) ∧
    isCollection Val.null = false ∧
    (∀ t, isCollection (Val.exotic t) = false) := by
  refine ⟨?_, rfl, fun t => rfl⟩
  intro σ c n h
  rw [pmergeC_eq]
  have hcf : (isCollection c && isCollection n) = false := by
    rcases h with h | h <;> simp [h]
  simp [hcf]

/-- C6 witness: merging the scalar `1` over `null` (and a record over a
date-like non-plain object) returns the changes value verbatim. -/
theorem c6_witness :
    pmergeC 0 Val.null (Val.num 1) = (Val.num 1, 0) ∧
    pmergeC 0 (Val.exotic 7) (Val.record 1 [("a", Val.num 2)]) =
      (Val.record 1 [("a", Val.num 2)], 0) ∧
    pmergeC 0 (Val.record 1 [("a", Val.num 2)]) (Val.exotic 7) = (Val.exotic 7, 0) := by
  refine ⟨?_, ?_, ?_⟩
  · exact c6_non_collection_replaced_verbatim.1 0 Val.null (Val.num 1) (Or.inl rfl)
  · exact c6_non_collection_replaced_verbatim.1 0 (Val.exotic 7)
      (Val.record 1 [("a", Val.num 2)]) (Or.inl rfl)
  · exact c6_non_collection_replaced_verbatim.1 0 (Val.record 1 [("a", Val.num 2)])
      (Val.exotic 7) (Or.inr rfl)

/-- C7: `deepMergeChanges` with zero changes returns `current` by
reference for every value; merging an empty record into a plain record
returns the record by reference; and removing a key that does not exist in
`current` is a silent no-op that also returns `current` by reference. -/
theorem c7_empty_diff_reference_stable :
    (∀ σ (c : Val), deepMergeChangesC σ c [] = (c, σ)) ∧
    (∀ σ id jd (es : List (String × Val)),
      (deepMergeChangesC σ (.record id es) [.record jd []]).1 = .record id es) ∧
    (∀ σ id jd (es : List (String × Val)) k, k ∉ es.map Prod.fst →
      (deepMergeChangesC σ (.record id es) [.record jd [(k, .omit)]]).1 = .record id es) := by
  refine ⟨fun σ c => rfl, ?_, ?_⟩
  · intro σ id jd es
    rw [deepMergeChangesC_single]
    exact pmergeC_record_empty_changes σ id jd es
  · intro σ id jd es k hk
    rw [deepMergeChangesC_single]
    exact pmergeC_record_remove_absent σ id jd es k hk

/-- C7 witness: `merge(x)` and `merge(x, {})` return `x` itself, and
removing the absent key `"y"` from `{x: 1}` returns the original record. -/
theorem c7_witness :
    deepMergeChangesC 5 (Val.record 1 [("x", Val.num 1)]) [] =
      (Val.record 1 [("x", Val.num 1)], 5) ∧
    (deepMergeChangesC 5 (Val.record 1 [("x", Val.num 1)]) [Val.record 2 []]).1 =
      Val.record 1 [("x", Val.num 1)] ∧
    (deepMergeChangesC 5 (Val.record 1 [("x", Val.num 1)])
      [Val.record 2 [("y", Val.omit)]]).1 = Val.record 1 [("x", Val.num 1)] :=
  ⟨c7_empty_diff_reference_stable.1 5 _,
   c7_empty_diff_reference_stable.2.1 5 1 2 [("x", Val.num 1)],
   c7_empty_diff_reference_stable.2.2 5 1 2 [("x", Val.num 1)] "y" (by decide)⟩

/-- C8: the variadic form folds left-to-right: `merge(x, a, b)` runs the
pairwise merge with `a` first and feeds its result (value and allocation
state) into the merge with `b`, so it equals `merge(merge(x, a), b)`. -/
theorem c8_fold_left_equivalence (σ : Nat) (x a b : Val) :
    deepMergeChangesC σ x [a, b] =
      deepMergeChangesC (pmergeC σ x a).2 (pmergeC σ x a).1 [b] ∧
    deepMergeChangesC σ x [a] = pmergeC σ x a :=
  ⟨rfl, rfl⟩

/-- C10: passing the bare `OMIT` sentinel itself as the changes argument
overwrites rather than removes: the sentinel is not a collection, so it is
returned verbatim as the whole result. -/
theorem c10_bare_omit_returned (σ : Nat) (c : Val) :
    deepMergeChangesC σ c [Val.omit] = (Val.omit, σ) := by
  rw [deepMergeChangesC_single, pmergeC_eq]
  simp [isCollection]

/-!
Identifier bounds for the built merged collection, and the C1 to C3
counterexamples and amended statements.
-/

theorem topId_objAssign (t : Val) (src : List (String × Val)) :
    topId (objAssign t src) = topId t := by
  cases t <;> rfl

theorem topId_le_maxId : ∀ v : Val, topId v ≤ maxId v := by
  intro v
  cases v <;> simp [topId, maxId]

theorem topId_mergedOf (σ : Nat) (c n : Val) (hc : isCollection c = true) :
    σ ≤ topId (mergedOf σ c n).1 ∧ topId (mergedOf σ c n).1 ≤ σ + 1 := by
  rw [mergedOf_eq]
  simp only [topId_objAssign]
  by_cases ha : (isArr c && isArr n) = true
  · rw [if_pos ha]
    have hca : isArr c = true := ((Bool.and_eq_true _ _).mp ha).1
    match c, hca with
    | .arr id xs, _ =>
      show σ ≤ topId (sliceTo (σ + 1) (.arr σ _) _) ∧ topId (sliceTo (σ + 1) (.arr σ _) _) ≤ σ + 1
      exact ⟨by simp [sliceTo, topId], by simp [sliceTo, topId]⟩
  · rw [if_neg ha]
    match c, hc with
    | .record id es, _ =>
      refine ⟨?_, ?_⟩ <;> simp [jsFilter, topId]
    | .arr id xs, _ =>
      refine ⟨?_, ?_⟩ <;> simp [jsFilter, topId]

theorem specShallowEqual_imp_shallowEqual (c m : Val)
    (h : specShallowEqual c m = true) : shallowEqual c m = true := by
  unfold specShallowEqual at h
  unfold shallowEqual
  simp only [Bool.and_eq_true] at h
  simp only [Bool.and_eq_true]
  exact ⟨h.1.1.2, h.1.2⟩

theorem lookupFirst_mem : ∀ (src : List (String × Val)) k v,
    lookupFirst src k = some v → (k, v) ∈ src := by
  intro src
  induction src with
  | nil => intro k v h; simp [lookupFirst] at h
  | cons e es ih =>
    intro k v h
    by_cases hk : (e.1 == k) = true
    · rw [lookupFirst, if_pos hk] at h
      have h1 : e.1 = k := eq_of_beq hk
      have h2 : e.2 = v := Option.some.inj h
      have : (k, v) = e := by rw [← h1, ← h2]
      rw [this]
      exact List.mem_cons_self _ _
    · have hk' : (e.1 == k) = false := by revert hk; cases e.1 == k <;> simp
      rw [lookupFirst, hk'] at h
      simp only [Bool.false_eq_true, if_false] at h
      exact List.mem_cons_of_mem _ (ih k v h)

theorem lookupFirst_eq_none : ∀ (src : List (String × Val)) k,
    k ∉ src.map Prod.fst → lookupFirst src k = none := by
  intro src k h
  cases hl : lookupFirst src k with
  | none => rfl
  | some v =>
    exact absurd (List.mem_map_of_mem Prod.fst (lookupFirst_mem src k v hl)) h

theorem lookupFirst_of_mem_nodup : ∀ (es : List (String × Val)) k v,
    nodupKeys (es.map Prod.fst) = true → (k, v) ∈ es → lookupFirst es k = some v := by
  intro es
  induction es with
  | nil => intro k v _ h; simp at h
  | cons e es ih =>
    intro k v hnd h
    simp only [List.map_cons, nodupKeys, Bool.and_eq_true, Bool.not_eq_true'] at hnd
    rcases List.mem_cons.mp h with h | h
    · rw [← h]
      simp [lookupFirst]
    · have hne : (e.1 == k) = false := by
        rw [beq_eq_false_iff_ne]
        intro he
        have hm : k ∈ es.map Prod.fst := List.mem_map_of_mem Prod.fst h
        rw [← he, ← containsStr_iff] at hm
        rw [hnd.1] at hm
        exact absurd hm (by simp)
      rw [lookupFirst, hne]
      simp only [Bool.false_eq_true, if_false]
      exact ih k v hnd.2 h

theorem strictEq_undef_right : ∀ a : Val, strictEq a .undef = true → a = .undef := by
  intro a h
  cases a <;> simp [strictEq] at h <;> rfl

theorem keys_filter_not_mem (p : String → Bool) (es : List (String × Val)) (k : String)
    (hp : p k = false) : k ∉ (es.filter fun e => p e.1).map Prod.fst := by
  intro h
  obtain ⟨e, he, hek⟩ := List.mem_map.mp h
  have := List.of_mem_filter he
  rw [hek] at this
  simp [hp] at this

/-- C2 counterexample: with `current = {a: undefined}` and `next =
{a: OMIT, b: 2}` the built `merged` is `{b: 2}`, which does not have the
same key set as `current` (so it is not shallow-equal in the
specification's sense, and not even deep-equal to `current`), yet the
engine returns `current`'s original reference: the source's `shallowEqual`
checks only the key count and `current`'s own keys, and reading the absent
key `"a"` from `{b: 2}` yields `undefined`, which is `===` to the stored
`undefined`. -/
theorem c2_counterexample :
    (pmergeC 3 (.record 1 [("a", .undef)]) (.record 2 [("a", .omit), ("b", .num 2)])).1 =
      .record 1 [("a", .undef)] ∧
    specShallowEqual (.record 1 [("a", .undef)])
      (mergedOf 3 (.record 1 [("a", .undef)]) (.record 2 [("a", .omit), ("b", .num 2)])).1 =
      false ∧
    deepEqual (.record 1 [("a", .undef)])
      (mergedOf 3 (.record 1 [("a", .undef)]) (.record 2 [("a", .omit), ("b", .num 2)])).1 =
      false := by
  decide

/-- C2 amended: after building `merged`, the engine returns `current`'s
original reference exactly when the source's `shallowEqual` holds — same
number of own keys and `current[k] === merged[k]` for every key `k` of
`current` (absent keys reading as `undefined`) — and otherwise returns the
newly built `merged`. The specification's same-key-set condition is
sufficient for the short-circuit but not necessary: the two conditions
coincide unless `current` stores `undefined` values. -/
theorem c2_amended_shallow_shortcircuit (σ : Nat) (c n : Val) (hc : isCollection c = true)
    (hn : isCollection n = true) (hσ : maxId c < σ) :
    ((pmergeC σ c n).1 = c ↔ shallowEqual c (mergedOf σ c n).1 = true) ∧
    ((pmergeC σ c n).1 ≠ c → pmergeC σ c n = mergedOf σ c n) ∧
    (specShallowEqual c (mergedOf σ c n).1 = true → (pmergeC σ c n).1 = c) := by
  have hcoll : (isCollection c && isCollection n) = true := by simp [hc, hn]
  have hne : (mergedOf σ c n).1 ≠ c := by
    intro he
    have h1 := (topId_mergedOf σ c n hc).1
    have h2 := topId_le_maxId c
    rw [he] at h1
    omega
  refine ⟨⟨?_, ?_⟩, ?_, ?_⟩
  · intro hr
    by_cases hs : shallowEqual c (mergedOf σ c n).1 = true
    · exact hs
    · rw [pmergeC_eq, if_pos hcoll, if_neg hs] at hr
      exact absurd hr hne
  · intro hs
    rw [pmergeC_eq, if_pos hcoll, if_pos hs]
  · intro hr
    by_cases hs : shallowEqual c (mergedOf σ c n).1 = true
    · exfalso
      apply hr
      rw [pmergeC_eq, if_pos hcoll, if_pos hs]
    · rw [pmergeC_eq, if_pos hcoll, if_neg hs]
  · intro hs
    rw [pmergeC_eq, if_pos hcoll, if_pos (specShallowEqual_imp_shallowEqual _ _ hs)]

/-- C2 witness: for `current = {a: 1}` and `next = {a: 1}` the amended
short-circuit statement holds at allocation counter 3. -/
theorem c2_witness :
    ((pmergeC 3 (.record 1 [("a", Val.num 1)]) (.record 2 [("a", Val.num 1)])).1 =
        Val.record 1 [("a", Val.num 1)] ↔
      shallowEqual (.record 1 [("a", Val.num 1)])
        (mergedOf 3 (.record 1 [("a", Val.num 1)]) (.record 2 [("a", Val.num 1)])).1 = true) ∧
    ((pmergeC 3 (.record 1 [("a", Val.num 1)]) (.record 2 [("a", Val.num 1)])).1 ≠
        Val.record 1 [("a", Val.num 1)] →
      pmergeC 3 (.record 1 [("a", Val.num 1)]) (.record 2 [("a", Val.num 1)]) =
        mergedOf 3 (.record 1 [("a", Val.num 1)]) (.record 2 [("a", Val.num 1)])) ∧
    (specShallowEqual (.record 1 [("a", Val.num 1)])
        (mergedOf 3 (.record 1 [("a", Val.num 1)]) (.record 2 [("a", Val.num 1)])).1 = true →
      (pmergeC 3 (.record 1 [("a", Val.num 1)]) (.record 2 [("a", Val.num 1)])).1 =
        Val.record 1 [("a", Val.num 1)]) :=
  c2_amended_shallow_shortcircuit 3 (.record 1 [("a", Val.num 1)])
    (.record 2 [("a", Val.num 1)]) (by decide) (by decide) (by decide)

/-- C3 counterexample: `deepMergeChanges(1, {a: OMIT})` returns
`{a: OMIT}` verbatim — the changes value is not merged against the scalar
current, so the sentinel survives into the result. -/
theorem c3_counterexample :
    (deepMergeChangesC 1 (.num 1) [.record 9 [("a", .omit)]]).1 = .record 9 [("a", .omit)] ∧
    containsOmit (deepMergeChangesC 1 (.num 1) [.record 9 [("a", .omit)]]).1 = true := by
  decide

/-- C3 amended: the sentinel never survives at a key it marks when the
merge actually recurses on two plain records: if `next[k]` is the sentinel
then the result does not map `k` to the sentinel (the key is filtered from
both `filteredCurrent` and `filteredNext`, so it is absent — or, when the
shallow short-circuit returns `current`, it carries `current`'s own
non-sentinel value, which the short-circuit forces to be `undefined`).
The sentinel can still appear in the result inside changes subtrees
returned verbatim by the overwrite rule, as the counterexample shows. -/
theorem c3_amended_marked_key_never_omit (σ ci ni : Nat) (ces nes : List (String × Val))
    (k : String) (hwf : nodupKeys (nes.map Prod.fst) = true)
    (hk : getKey (.record ni nes) k = .omit) :
    getKey (pmergeC σ (.record ci ces) (.record ni nes)).1 k ≠ .omit := by
  have hlk : lookupFirst nes k = some .omit := by
    unfold getKey entriesOf at hk
    cases hl : lookupFirst nes k with
    | none => rw [hl] at hk; exact absurd hk (by simp)
    | some v => rw [hl] at hk; simp at hk; rw [hk]
  have hcoll :
      (isCollection (Val.record ci ces) && isCollection (Val.record ni nes)) = true := rfl
  have harr : (isArr (Val.record ci ces) && isArr (Val.record ni nes)) = false := rfl
  have hform : (mergedOf σ (Val.record ci ces) (Val.record ni nes)).1 =
      Val.record σ
        (((mapMergeC (Val.record ci ces) (σ + 1) (nes.filter fun e => !isOmit e.2)).1).foldl
          (fun acc e => setRecKey acc e.1 e.2)
          (ces.filter fun e => !isOmit (getKey (Val.record ni nes) e.1))) := by
    rw [mergedOf_eq, harr]
    simp only [Bool.false_eq_true, if_false]
    rfl
  have hnotfn : k ∉ (nes.filter fun e => !isOmit e.2).map Prod.fst := by
    intro hm
    obtain ⟨e, he, hek⟩ := List.mem_map.mp hm
    have h1 := List.of_mem_filter he
    have h2 : e ∈ nes := List.mem_of_mem_filter he
    have h3 : lookupFirst nes e.1 = some e.2 := by
      have := lookupFirst_of_mem_nodup nes e.1 e.2 hwf (by
        obtain ⟨e1, e2⟩ := e; exact h2)
      exact this
    rw [hek, hlk] at h3
    have : e.2 = Val.omit := (Option.some.inj h3).symm
    rw [this] at h1
    simp [isOmit] at h1
  have hgetrec : ∀ (i : Nat) (gs : List (String × Val)) key,
      getKey (.record i gs) key = (lookupFirst gs key).getD .undef := fun _ _ _ => rfl
  have hgk : getKey (mergedOf σ (Val.record ci ces) (Val.record ni nes)).1 k = .undef := by
    rw [hform, hgetrec]
    rw [lookupFirst_eq_none]
    · rfl
    · intro hm
      rcases (mem_keys_foldl_setRecKey _ _ _).mp hm with hm | hm
      · exact keys_filter_not_mem (fun x => !isOmit (getKey (Val.record ni nes) x)) ces k
          (by show (!isOmit (getKey (Val.record ni nes) k)) = false; rw [hk]; rfl) hm
      · rw [mapMergeC_keys] at hm
        exact hnotfn hm
  rw [pmergeC_eq, if_pos hcoll]
  by_cases hs : shallowEqual (Val.record ci ces)
      (mergedOf σ (Val.record ci ces) (Val.record ni nes)).1 = true
  · rw [if_pos hs]
    show getKey (Val.record ci ces) k ≠ .omit
    by_cases hkc : k ∈ jsKeys (Val.record ci ces)
    · unfold shallowEqual at hs
      have hall := ((Bool.and_eq_true _ _).mp hs).2
      have hstr := List.all_eq_true.mp hall k hkc
      rw [hgk] at hstr
      rw [strictEq_undef_right _ hstr]
      simp
    · have hgc : getKey (Val.record ci ces) k = .undef := by
        rw [hgetrec, lookupFirst_eq_none ces k hkc]
        rfl
      rw [hgc]
      simp
  · rw [if_neg hs]
    show getKey (mergedOf σ (Val.record ci ces) (Val.record ni nes)).1 k ≠ .omit
    rw [hgk]
    simp

/-- C3 witness: removing key `"a"` from `{a: 1, b: 2}` with `{a: OMIT}`
yields a result whose `"a"` is not the sentinel. -/
theorem c3_witness :
    getKey (pmergeC 3 (.record 1 [("a", Val.num 1), ("b", Val.num 2)])
      (.record 2 [("a", Val.omit)])).1 "a" ≠ Val.omit :=
  c3_amended_marked_key_never_omit 3 1 2 [("a", Val.num 1), ("b", Val.num 2)]
    [("a", Val.omit)] "a" (by decide) (by decide)

/-- C1 counterexample: the deep-equal-implies-same-reference invariant
fails on the code in two ways. (1) Two changes applied in sequence,
`merge({a:1}, {a:2}, {a:1})`, produce a freshly allocated record that is
deep-equal to the original but not the original reference: only each
step's own shallow comparison runs, and the second step compares against
the intermediate `{a:2}`. (2) A single change with an array whose removal
marker shifts later indices, `merge([x, y], [OMIT, {0:1}])` with `x` and
`y` distinct references both equal to `[1]`, produces a fresh array
`[y, y]` that is deep-equal to the original `[x, y]`: the per-key identity
check compares `y` against the shifted position of `x` and fails. -/
theorem c1_counterexample :
    (deepEqual (.record 1 [("a", .num 1)])
      (deepMergeChangesC 4 (.record 1 [("a", .num 1)])
        [.record 2 [("a", .num 2)], .record 3 [("a", .num 1)]]).1 = true ∧
    (deepMergeChangesC 4 (.record 1 [("a", .num 1)])
      [.record 2 [("a", .num 2)], .record 3 [("a", .num 1)]]).1 ≠
      .record 1 [("a", .num 1)]) ∧
    (deepEqual (.arr 3 [some (.arr 1 [some (.num 1)]), some (.arr 2 [some (.num 1)])])
      (deepMergeChangesC 6 (.arr 3 [some (.arr 1 [some (.num 1)]), some (.arr 2 [some (.num 1)])])
        [.arr 4 [some .omit, some (.record 5 [("0", .num 1)])]]).1 = true ∧
    (deepMergeChangesC 6 (.arr 3 [some (.arr 1 [some (.num 1)]), some (.arr 2 [some (.num 1)])])
      [.arr 4 [some .omit, some (.record 5 [("0", .num 1)])]]).1 ≠
      .arr 3 [some (.arr 1 [some (.num 1)]), some (.arr 2 [some (.num 1)])]) := by
  decide

/-!
Sublemmas for the amended deep-equal collapse (C1): scalar deep equality
is equality, and the pieces of a record-vs-record deep equality.
-/

theorem deepEqual_eq_of_not_coll : ∀ (a b : Val),
    isCollection a = false ∨ isCollection b = false → deepEqual a b = true → a = b := by
  intro a b h hd
  cases a <;> cases b <;> simp_all [deepEqual, isCollection]

theorem deepEqual_record_unfold (ci cj : Nat) (es fs : List (String × Val)) :
    deepEqual (.record ci es) (.record cj fs) =
      (((es.map Prod.fst).all fun k => (fs.map Prod.fst).contains k) &&
      (((fs.map Prod.fst).all fun k => (es.map Prod.fst).contains k) &&
        deepEqualEntries es fs)) := rfl

theorem deepEqualEntries_mem : ∀ (es fs : List (String × Val)),
    deepEqualEntries es fs = true → ∀ e ∈ es,
      deepEqual e.2 ((lookupFirst fs e.1).getD .undef) = true := by
  intro es
  induction es with
  | nil => intro fs _ e he; simp at he
  | cons f es ih =>
    intro fs h e he
    obtain ⟨f1, f2⟩ := f
    simp only [deepEqualEntries, Bool.and_eq_true] at h
    rcases List.mem_cons.mp he with he | he
    · rw [he]
      exact h.1
    · exact ih fs h.2 e he

theorem wfEntries_mem : ∀ (es : List (String × Val)), wfEntries es = true →
    ∀ e ∈ es, wfRecords e.2 = true := by
  intro es
  induction es with
  | nil => intro _ e he; simp at he
  | cons f es ih =>
    intro h e he
    obtain ⟨f1, f2⟩ := f
    simp only [wfEntries, Bool.and_eq_true] at h
    rcases List.mem_cons.mp he with he | he
    · rw [he]; exact h.1
    · exact ih h.2 e he

theorem noSeqEntries_mem : ∀ (es : List (String × Val)), noSeqEntries es = true →
    ∀ e ∈ es, noSeq e.2 = true := by
  intro es
  induction es with
  | nil => intro _ e he; simp at he
  | cons f es ih =>
    intro h e he
    obtain ⟨f1, f2⟩ := f
    simp only [noSeqEntries, Bool.and_eq_true] at h
    rcases List.mem_cons.mp he with he | he
    · rw [he]; exact h.1
    · exact ih h.2 e he

/-- C1 amended: the deep-equal collapse holds for a single pairwise merge
when the current value contains no Sequence at any depth (and its records
have distinct keys, as JavaScript objects always do): if the result of
`deepMergeChanges(current, next)` is deep-equal to `current` then it is
`current`'s exact original reference — and this propagates recursively,
since each subtree's merge went through the same short-circuit. With
multiple changes values, or with Sequences in `current` whose marked
indices shift later elements, the invariant fails (see the
counterexample). -/
theorem c1_amended_deep_equal_collapse : ∀ (H : Nat) (c : Val), heightVal c ≤ H →
    wfRecords c = true → noSeq c = true → ∀ (n : Val) (σ : Nat),
    deepEqual c (pmergeC σ c n).1 = true → (pmergeC σ c n).1 = c := by
  intro H
  induction H with
  | zero =>
    intro c hh hwf hns n σ hde
    have hc : isCollection c = false := height_zero_not_coll c (by omega)
    have hcf : (isCollection c && isCollection n) = false := by simp [hc]
    rw [pmergeC_eq] at hde ⊢
    simp only [hcf, Bool.false_eq_true, if_false] at hde ⊢
    exact (deepEqual_eq_of_not_coll c n (Or.inl hc) hde).symm
  | succ H ih =>
    intro c hh hwf hns n σ hde
    by_cases hcoll : (isCollection c && isCollection n) = true
    · have hcc : isCollection c = true := ((Bool.and_eq_true _ _).mp hcoll).1
      obtain ⟨ci, ces, rfl⟩ : ∃ ci ces, c = Val.record ci ces := by
        match c, hcc, hns with
        | .record ci ces, _, _ => exact ⟨ci, ces, rfl⟩
        | .arr _ _, _, hns => exact absurd hns (by simp [noSeq])
      have hgetrec : ∀ (i : Nat) (gs : List (String × Val)) key,
          getKey (.record i gs) key = (lookupFirst gs key).getD .undef := fun _ _ _ => rfl
      have harr : (isArr (Val.record ci ces) && isArr n) = false := rfl
      set fn := (entriesOf n).filter (fun e => !isOmit e.2) with hfn
      set mapped := (mapMergeC (Val.record ci ces) (σ + 1) fn).1 with hmapped
      set fces := ces.filter (fun e => !isOmit (getKey n e.1)) with hfces
      set gs := mapped.foldl (fun acc e => setRecKey acc e.1 e.2) fces with hgs
      have hform : (mergedOf σ (Val.record ci ces) n).1 = Val.record σ gs := by
        rw [mergedOf_eq, harr]
        simp only [Bool.false_eq_true, if_false]
        rw [hgs, hfces, hmapped, hfn]
        rfl
      rw [pmergeC_eq, if_pos hcoll] at hde ⊢
      by_cases hs : shallowEqual (Val.record ci ces)
          (mergedOf σ (Val.record ci ces) n).1 = true
      · rw [if_pos hs]
      · exfalso
        apply hs
        rw [if_neg hs] at hde
        rw [hform] at hde ⊢
        rw [deepEqual_record_unfold] at hde
        simp only [Bool.and_eq_true] at hde
        obtain ⟨hsub1, hsub2, hent⟩ := hde
        have hwfsplit : (nodupKeys (ces.map Prod.fst) && wfEntries ces) = true := hwf
        have hnodc : (ces.map Prod.fst).Nodup :=
          (nodupKeys_iff _).mp ((Bool.and_eq_true _ _).mp hwfsplit).1
        have hwfe : wfEntries ces = true := ((Bool.and_eq_true _ _).mp hwfsplit).2
        have hnse : noSeqEntries ces = true := hns
        have hnodg : (gs.map Prod.fst).Nodup := by
          rw [← nodupKeys_iff, hgs]
          apply nodup_foldl_setRecKey
          rw [nodupKeys_iff, hfces]
          exact hnodc.sublist ((List.filter_sublist ces).map Prod.fst)
        unfold shallowEqual
        apply (Bool.and_eq_true _ _).mpr
        constructor
        · rw [beq_iff_eq]
          have hs1 : (ces.map Prod.fst) ⊆ (gs.map Prod.fst) := fun k hk =>
            (containsStr_iff _ _).mp (List.all_eq_true.mp hsub1 k hk)
          have hs2 : (gs.map Prod.fst) ⊆ (ces.map Prod.fst) := fun k hk =>
            (containsStr_iff _ _).mp (List.all_eq_true.mp hsub2 k hk)
          have hle1 := (List.subperm_of_subset hnodc hs1).length_le
          have hle2 := (List.subperm_of_subset hnodg hs2).length_le
          show (ces.map Prod.fst).length = (gs.map Prod.fst).length
          omega
        · apply List.all_eq_true.mpr
          intro k hk
          have hkc : k ∈ ces.map Prod.fst := hk
          obtain ⟨e, hec, hek⟩ := List.mem_map.mp hkc
          have hlc : lookupFirst ces k = some e.2 := by
            rw [← hek]
            exact lookupFirst_of_mem_nodup ces e.1 e.2 ((nodupKeys_iff _).mpr hnodc)
              (by obtain ⟨e1, e2⟩ := e; exact hec)
          have hgc : getKey (Val.record ci ces) k = e.2 := by
            rw [hgetrec, hlc]
            rfl
          have hdeu := deepEqualEntries_mem ces gs hent e (by
            obtain ⟨e1, e2⟩ := e; exact hec)
          rw [hek] at hdeu
          have hhu : heightVal e.2 < heightVal (Val.record ci ces) :=
            entriesOf_height_lt (Val.record ci ces) e (by
              obtain ⟨e1, e2⟩ := e; exact hec)
          have hwfu : wfRecords e.2 = true := wfEntries_mem ces hwfe e hec
          have hnsu : noSeq e.2 = true := noSeqEntries_mem ces hnse e hec
          cases hll : lookupLast mapped k with
          | some v =>
            have hdgs : lookupFirst gs k = some v := by
              rw [hgs, lookupFirst_foldl_setRecKey, hll]
            have hgm : getKey (Val.record σ gs) k = v := by
              rw [hgetrec, hdgs]
              rfl
            obtain ⟨σ2, w, hwmem, hv⟩ := mapMergeC_lookupLast _ _ _ _ _ (hmapped ▸ hll)
            rw [hdgs] at hdeu
            have hdeu2 : deepEqual e.2 (pmergeC σ2 e.2 w).1 = true := by
              have : v = (pmergeC σ2 e.2 w).1 := by rw [hv, hgc]
              rw [← this]
              exact hdeu
            have hvu : (pmergeC σ2 e.2 w).1 = e.2 :=
              ih e.2 (by omega) hwfu hnsu w σ2 hdeu2
            rw [hgc, hgm, hv, hgc, hvu]
            exact strictEq_refl _
          | none =>
            have hdgs : lookupFirst gs k = lookupFirst fces k := by
              rw [hgs, lookupFirst_foldl_setRecKey, hll]
            by_cases hp : (!isOmit (getKey n k)) = true
            · have hlcf : lookupFirst fces k = some e.2 := by
                rw [hfces, lookupFirst_filter_key (fun x => !isOmit (getKey n x)) ces k,
                  if_pos hp, hlc]
              rw [hgc, hgetrec, hdgs, hlcf]
              show strictEq e.2 e.2 = true
              exact strictEq_refl _
            · exfalso
              have hp2 : (!isOmit (getKey n k)) = false := by
                revert hp; cases !isOmit (getKey n k) <;> simp
              have hkg : k ∈ gs.map Prod.fst :=
                (containsStr_iff _ _).mp (List.all_eq_true.mp hsub1 k hkc)
              rw [hgs] at hkg
              rcases (mem_keys_foldl_setRecKey _ _ _).mp hkg with hm | hm
              · rw [hfces] at hm
                exact keys_filter_not_mem (fun x => !isOmit (getKey n x)) ces k hp2 hm
              · rw [lookupLast_none_iff, hmapped, mapMergeC_keys] at hll
                rw [hmapped, mapMergeC_keys] at hm
                exact hll hm
    · have hcf : (isCollection c && isCollection n) = false := by
        revert hcoll; cases isCollection c && isCollection n <;> simp
      have hor : isCollection c = false ∨ isCollection n = false := by
        revert hcf; cases h1 : isCollection c <;> cases h2 : isCollection n <;> simp
      rw [pmergeC_eq] at hde ⊢
      simp only [hcf, Bool.false_eq_true, if_false] at hde ⊢
      exact (deepEqual_eq_of_not_coll c n hor hde).symm

/-!
Occurrence lemmas: every collection inside a merge result is an input
subvalue or a fresh allocation (C9).
-/

theorem occursInEntries_iff : ∀ (v : Val) (es : List (String × Val)),
    occursInEntries v es = true ↔ ∃ e ∈ es, occursIn v e.2 = true := by
  intro v es
  induction es with
  | nil => simp [occursInEntries]
  | cons e es ih =>
    obtain ⟨e1, e2⟩ := e
    simp only [occursInEntries, Bool.or_eq_true, ih]
    constructor
    · intro h
      rcases h with h | ⟨f, hf, hfo⟩
      · exact ⟨(e1, e2), List.mem_cons_self _ _, h⟩
      · exact ⟨f, List.mem_cons_of_mem _ hf, hfo⟩
    · intro ⟨f, hf, hfo⟩
      rcases List.mem_cons.mp hf with hf | hf
      · left
        rw [hf] at hfo
        exact hfo
      · right; exact ⟨f, hf, hfo⟩

theorem occursInElems_iff : ∀ (v : Val) (xs : List (Option Val)),
    occursInElems v xs = true ↔ ∃ w, some w ∈ xs ∧ occursIn v w = true := by
  intro v xs
  induction xs with
  | nil => simp [occursInElems]
  | cons x xs ih =>
    cases x with
    | none =>
      simp only [occursInElems, ih]
      constructor
      · intro ⟨w, hw, hwo⟩
        exact ⟨w, List.mem_cons_of_mem _ hw, hwo⟩
      · intro ⟨w, hw, hwo⟩
        rcases List.mem_cons.mp hw with hw | hw
        · exact absurd hw (by simp)
        · exact ⟨w, hw, hwo⟩
    | some u =>
      simp only [occursInElems, Bool.or_eq_true, ih]
      constructor
      · intro h
        rcases h with h | ⟨w, hw, hwo⟩
        · exact ⟨u, List.mem_cons_self _ _, h⟩
        · exact ⟨w, List.mem_cons_of_mem _ hw, hwo⟩
      · intro ⟨w, hw, hwo⟩
        rcases List.mem_cons.mp hw with hw | hw
        · left
          have : w = u := Option.some.inj hw
          rw [← this]
          exact hwo
        · right; exact ⟨w, hw, hwo⟩

theorem valBeq_not_coll (v t : Val) (hv : isCollection v = true)
    (ht : isCollection t = false) : valBeq v t = false := by
  cases v <;> cases t <;> simp_all [isCollection, valBeq]

theorem occursIn_of_entriesOf (v c : Val) (e : String × Val) (he : e ∈ entriesOf c)
    (ho : occursIn v e.2 = true) : occursIn v c = true := by
  match c with
  | .record i es =>
    show (valBeq v (.record i es) || occursInEntries v es) = true
    rw [Bool.or_eq_true]
    right
    exact (occursInEntries_iff v es).mpr ⟨e, he, ho⟩
  | .arr i xs =>
    show (valBeq v (.arr i xs) || occursInElems v xs) = true
    rw [Bool.or_eq_true]
    right
    exact (occursInElems_iff v xs).mpr ⟨e.2, mem_arrEntries_some xs 0 e he, ho⟩
  | .undef | .null | .num _ | .str _ | .bool _ | .omit | .exotic _ =>
    exact absurd he (by simp [entriesOf])

theorem occursIn_getKey (v c : Val) (k : String) (hv : isCollection v = true)
    (h : occursIn v (getKey c k) = true) : occursIn v c = true := by
  unfold getKey at h
  cases hl : lookupFirst (entriesOf c) k with
  | none =>
    rw [hl] at h
    have h2 : valBeq v Val.undef = true := h
    rw [valBeq_not_coll v Val.undef hv rfl] at h2
    exact absurd h2 (by simp)
  | some w =>
    rw [hl] at h
    have h2 : occursIn v w = true := h
    exact occursIn_of_entriesOf v c (k, w) (lookupFirst_mem _ _ _ hl) h2

theorem mem_setRecKey : ∀ (es : List (String × Val)) k0 v0 (e : String × Val),
    e ∈ setRecKey es k0 v0 → e ∈ es ∨ e = (k0, v0) := by
  intro es
  induction es with
  | nil => intro k0 v0 e h; simp [setRecKey] at h; exact Or.inr h
  | cons f es ih =>
    intro k0 v0 e h
    obtain ⟨f1, f2⟩ := f
    by_cases hk : ((f1 : String) == k0) = true
    · rw [setRecKey, if_pos hk] at h
      rcases List.mem_cons.mp h with h | h
      · right
        rw [h, eq_of_beq hk]
      · left; exact List.mem_cons_of_mem _ h
    · have hk' : ((f1 : String) == k0) = false := by revert hk; cases (f1 : String) == k0 <;> simp
      rw [setRecKey, hk'] at h
      simp only [Bool.false_eq_true, if_false] at h
      rcases List.mem_cons.mp h with h | h
      · left; rw [h]; exact List.mem_cons_self _ _
      · rcases ih k0 v0 e h with h | h
        · left; exact List.mem_cons_of_mem _ h
        · right; exact h

theorem mem_foldl_setRecKey : ∀ (src es : List (String × Val)) (e : String × Val),
    e ∈ src.foldl (fun acc f => setRecKey acc f.1 f.2) es → e ∈ es ∨ e ∈ src := by
  intro src
  induction src with
  | nil => intro es e h; exact Or.inl h
  | cons f src ih =>
    intro es e h
    rcases ih _ e h with h | h
    · rcases mem_setRecKey es f.1 f.2 e h with h | h
      · exact Or.inl h
      · right
        rw [h]
        have : (f.1, f.2) = f := rfl
        rw [this]
        exact List.mem_cons_self _ _
    · exact Or.inr (List.mem_cons_of_mem _ h)

theorem mem_some_setArrIdx : ∀ (xs : List (Option Val)) i u w,
    some w ∈ setArrIdx xs i u → some w ∈ xs ∨ w = u := by
  intro xs i u w h
  unfold setArrIdx at h
  by_cases hi : i < xs.length
  · rw [if_pos hi] at h
    rcases List.mem_or_eq_of_mem_set h with h | h
    · exact Or.inl h
    · exact Or.inr (Option.some.inj h)
  · rw [if_neg hi] at h
    rcases List.mem_append.mp h with h | h
    · rcases List.mem_append.mp h with h | h
      · exact Or.inl h
      · have := (List.mem_replicate.mp h).2
        exact absurd this (by simp)
    · rcases List.mem_cons.mp h with h | h
      · exact Or.inr (Option.some.inj h)
      · exact absurd h (by simp)

theorem mem_some_assignFold : ∀ (src : List (String × Val)) (xs : List (Option Val)) w,
    some w ∈ src.foldl (fun acc e =>
      match parseIndex e.1 with
      | some i => setArrIdx acc i e.2
      | none => acc) xs →
    some w ∈ xs ∨ ∃ e ∈ src, w = e.2 := by
  intro src
  induction src with
  | nil => intro xs w h; exact Or.inl h
  | cons f src ih =>
    intro xs w h
    rcases ih _ w h with h | ⟨e, he, hw⟩
    · cases hp : parseIndex f.1 with
      | none => rw [List.foldl_cons] at *; simp only [hp] at h; exact Or.inl h
      | some i =>
        simp only [hp] at h
        rcases mem_some_setArrIdx xs i f.2 w h with h | h
        · exact Or.inl h
        · exact Or.inr ⟨f, List.mem_cons_self _ _, h⟩
    · exact Or.inr ⟨e, List.mem_cons_of_mem _ he, hw⟩

theorem mem_some_jsArrayFilter : ∀ (xs : List (Option Val)) i p y,
    y ∈ jsArrayFilter xs i p → y ∈ xs := by
  intro xs
  induction xs with
  | nil => intro i p y h; simp [jsArrayFilter] at h
  | cons x xs ih =>
    intro i p y h
    cases x with
    | none => exact List.mem_cons_of_mem _ (ih _ _ _ h)
    | some u =>
      rw [jsArrayFilter] at h
      by_cases hp : p (natToString i) = true
      · rw [if_pos hp] at h
        rcases List.mem_cons.mp h with h | h
        · rw [h]; exact List.mem_cons_self _ _
        · exact List.mem_cons_of_mem _ (ih _ _ _ h)
      · rw [if_neg hp] at h
        exact List.mem_cons_of_mem _ (ih _ _ _ h)

theorem occursIn_arr_of_elem (v : Val) (i : Nat) (xs : List (Option Val)) (w : Val)
    (hw : some w ∈ xs) (ho : occursIn v w = true) : occursIn v (.arr i xs) = true := by
  show (valBeq v (.arr i xs) || occursInElems v xs) = true
  rw [Bool.or_eq_true]
  right
  exact (occursInElems_iff v xs).mpr ⟨w, hw, ho⟩

theorem record_merged_occurs (v : Val) (ι : Nat) (fces mapped : List (String × Val))
    (ho : occursIn v (objAssign (.record ι fces) mapped) = true) :
    v = objAssign (.record ι fces) mapped ∨
    (∃ e ∈ fces, occursIn v e.2 = true) ∨ (∃ e ∈ mapped, occursIn v e.2 = true) := by
  have ho2 : (valBeq v (.record ι (mapped.foldl (fun acc f => setRecKey acc f.1 f.2) fces)) ||
      occursInEntries v (mapped.foldl (fun acc f => setRecKey acc f.1 f.2) fces)) = true := ho
  rcases Bool.or_eq_true _ _ ▸ ho2 with hb | hb
  · exact Or.inl (valBeq_sound _ _ hb)
  · obtain ⟨e, he, heo⟩ := (occursInEntries_iff _ _).mp hb
    rcases mem_foldl_setRecKey _ _ _ he with he | he
    · exact Or.inr (Or.inl ⟨e, he, heo⟩)
    · exact Or.inr (Or.inr ⟨e, he, heo⟩)

theorem arr_merged_occurs (v : Val) (ι : Nat) (base : List (Option Val))
    (mapped : List (String × Val))
    (ho : occursIn v (objAssign (.arr ι base) mapped) = true) :
    v = objAssign (.arr ι base) mapped ∨
    (∃ w, some w ∈ base ∧ occursIn v w = true) ∨
    (∃ e ∈ mapped, occursIn v e.2 = true) := by
  have ho2 : (valBeq v (.arr ι (mapped.foldl (fun acc e =>
      match parseIndex e.1 with
      | some i => setArrIdx acc i e.2
      | none => acc) base)) ||
      occursInElems v (mapped.foldl (fun acc e =>
      match parseIndex e.1 with
      | some i => setArrIdx acc i e.2
      | none => acc) base)) = true := ho
  rcases Bool.or_eq_true _ _ ▸ ho2 with hb | hb
  · exact Or.inl (valBeq_sound _ _ hb)
  · obtain ⟨w, hw, hwo⟩ := (occursInElems_iff _ _).mp hb
    rcases mem_some_assignFold _ _ _ hw with hw | ⟨e, he, hwe⟩
    · exact Or.inr (Or.inl ⟨w, hw, hwo⟩)
    · refine Or.inr (Or.inr ⟨e, he, ?_⟩)
      rw [← hwe]
      exact hwo

theorem pmergeC_occurs_aux : ∀ (Hn : Nat) (n : Val), heightVal n ≤ Hn →
    ∀ (c : Val) (σ : Nat) (v : Val), isCollection v = true →
      occursIn v (pmergeC σ c n).1 = true →
      occursIn v c = true ∨ occursIn v n = true ∨ σ ≤ topId v := by
  intro Hn
  induction Hn with
  | zero =>
    intro n hn c σ v hv ho
    have hc : isCollection n = false := height_zero_not_coll n (by omega)
    have hcf : (isCollection c && isCollection n) = false := by simp [hc]
    rw [pmergeC_eq] at ho
    simp only [hcf, Bool.false_eq_true, if_false] at ho
    exact Or.inr (Or.inl ho)
  | succ Hn ih =>
    intro n hn c σ v hv ho
    by_cases hcoll : (isCollection c && isCollection n) = true
    · have hcc : isCollection c = true := ((Bool.and_eq_true _ _).mp hcoll).1
      rw [pmergeC_eq, if_pos hcoll] at ho
      by_cases hs : shallowEqual c (mergedOf σ c n).1 = true
      · rw [if_pos hs] at ho
        exact Or.inl ho
      · rw [if_neg hs] at ho
        have hmap : ∀ (σ₂ : Nat), σ ≤ σ₂ →
            ∀ e ∈ (mapMergeC c σ₂ ((entriesOf n).filter fun f => !isOmit f.2)).1,
            occursIn v e.2 = true →
            occursIn v c = true ∨ occursIn v n = true ∨ σ ≤ topId v := by
          intro σ₂ hσ₂ e he hoe
          obtain ⟨σ3, w, hwmem, hev, hσ3⟩ := mapMergeC_mem c _ σ₂ e he
          rw [hev] at hoe
          have hwn : (e.1, w) ∈ entriesOf n := List.mem_of_mem_filter hwmem
          have hhw : heightVal w < heightVal n := entriesOf_height_lt n (e.1, w) hwn
          rcases ih w (by omega) (getKey c e.1) σ3 v hv hoe with h | h | h
          · exact Or.inl (occursIn_getKey v c e.1 hv h)
          · exact Or.inr (Or.inl (occursIn_of_entriesOf v n (e.1, w) hwn h))
          · right; right; omega
        have ho2 : occursIn v (mergedOf σ c n).1 = true := ho
        rw [mergedOf_eq] at ho2
        obtain ⟨ci, ces, rfl⟩ | ⟨ci, xs, rfl⟩ :
            (∃ ci ces, c = Val.record ci ces) ∨ (∃ ci xs, c = Val.arr ci xs) := by
          match c, hcc with
          | .record ci ces, _ => exact Or.inl ⟨ci, ces, rfl⟩
          | .arr ci xs, _ => exact Or.inr ⟨ci, xs, rfl⟩
        ·
          have harr : (isArr (Val.record ci ces) && isArr n) = false := rfl
          rw [harr] at ho2
          simp only [Bool.false_eq_true, if_false] at ho2
          have ho3 : occursIn v (objAssign
              (.record σ (ces.filter fun f => !isOmit (getKey n f.1)))
              (mapMergeC (Val.record ci ces) (σ + 1)
                ((entriesOf n).filter fun f => !isOmit f.2)).1) = true := ho2
          rcases record_merged_occurs v σ _ _ ho3 with h | ⟨e, he, heo⟩ | ⟨e, he, heo⟩
          · right; right
            rw [h, topId_objAssign]
            show σ ≤ σ
            exact le_rfl
          · have : e ∈ ces := List.mem_of_mem_filter he
            exact Or.inl (occursIn_of_entriesOf v (Val.record ci ces) e this heo)
          · exact hmap (σ + 1) (by omega) e he heo
        · by_cases han : isArr n = true
          · have harr : (isArr (Val.arr ci xs) && isArr n) = true := by
              rw [Bool.and_eq_true]; exact ⟨rfl, han⟩
            rw [harr] at ho2
            simp only [if_true] at ho2
            have ho3 : occursIn v (objAssign
                (.arr (σ + 1) ((jsArrayFilter xs 0 fun k => !isOmit (getKey n k)).take
                  ((maxKey ((entriesOf n).filter fun f => !isOmit f.2)).getD 0)))
                (mapMergeC (Val.arr ci xs) (σ + 2)
                  ((entriesOf n).filter fun f => !isOmit f.2)).1) = true := ho2
            rcases arr_merged_occurs v (σ + 1) _ _ ho3 with h | ⟨w, hw, hwo⟩ | ⟨e, he, heo⟩
            · right; right
              rw [h, topId_objAssign]
              show σ ≤ σ + 1
              omega
            · have hwx : some w ∈ xs :=
                mem_some_jsArrayFilter xs 0 _ _ (List.mem_of_mem_take hw)
              exact Or.inl (occursIn_arr_of_elem v ci xs w hwx hwo)
            · exact hmap (σ + 2) (by omega) e he heo
          · have harr : (isArr (Val.arr ci xs) && isArr n) = false := by
              revert han; cases isArr n <;> simp
            rw [harr] at ho2
            simp only [Bool.false_eq_true, if_false] at ho2
            have ho3 : occursIn v (objAssign
                (.arr σ (jsArrayFilter xs 0 fun k => !isOmit (getKey n k)))
                (mapMergeC (Val.arr ci xs) (σ + 1)
                  ((entriesOf n).filter fun f => !isOmit f.2)).1) = true := ho2
            rcases arr_merged_occurs v σ _ _ ho3 with h | ⟨w, hw, hwo⟩ | ⟨e, he, heo⟩
            · right; right
              rw [h, topId_objAssign]
              show σ ≤ σ
              exact le_rfl
            · have hwx : some w ∈ xs := mem_some_jsArrayFilter xs 0 _ _ hw
              exact Or.inl (occursIn_arr_of_elem v ci xs w hwx hwo)
            · exact hmap (σ + 1) (by omega) e he heo
    · have hcf : (isCollection c && isCollection n) = false := by
        revert hcoll; cases isCollection c && isCollection n <;> simp
      rw [pmergeC_eq] at ho
      simp only [hcf, Bool.false_eq_true, if_false] at ho
      exact Or.inr (Or.inl ho)

/-- C9: the merge never mutates its inputs. In the embedding, reference
identity is the allocation identifier, and every collection the merge
builds is tagged with a fresh identifier `≥ σ`. This theorem makes the
frame property precise: every collection occurring anywhere in the result
of `deepMergeChanges(current, ...changes)` is either a subtree of
`current` shared verbatim (identifier included — the input subtree itself,
unmodified), a subtree of one of the changes shared verbatim, or a freshly
allocated collection whose identifier is at least the allocation counter
`σ`; so when every input identifier is below `σ`, no collection built
during the merge is an input collection, and the inputs — which the pure
fold returns untouched — are deep-equal before and after the call. -/
theorem c9_inputs_never_mutated (σ : Nat) (c : Val) (ns : List Val)
    (v : Val) (hv : isCollection v = true)
    (ho : occursIn v (deepMergeChangesC σ c ns).1 = true) :
    occursIn v c = true ∨ (∃ n, n ∈ ns ∧ occursIn v n = true) ∨ σ ≤ topId v := by
  revert ho
  induction ns generalizing σ c with
  | nil => intro ho; exact Or.inl ho
  | cons n ns ih =>
    intro ho
    have hstep : deepMergeChangesC σ c (n :: ns) =
        deepMergeChangesC (pmergeC σ c n).2 (pmergeC σ c n).1 ns := rfl
    rw [hstep] at ho
    rcases ih (pmergeC σ c n).2 (pmergeC σ c n).1 ho with h | ⟨m, hm, hmo⟩ | h
    · rcases pmergeC_occurs_aux (heightVal n) n le_rfl c σ v hv h with h1 | h1 | h1
      · exact Or.inl h1
      · exact Or.inr (Or.inl ⟨n, List.mem_cons_self n ns, h1⟩)
      · exact Or.inr (Or.inr h1)
    · exact Or.inr (Or.inl ⟨m, List.mem_cons_of_mem n hm, hmo⟩)
    · exact Or.inr (Or.inr (le_trans (pmergeC_sigma_le' σ c n) h))

/-- Witness for C9 at a concrete input: the freshly built record of the
merge of `{a:1}` (id 1) with `{a:2}` (id 2) under counter 3 carries
identifier 3 ≥ 3, and the theorem applies. -/
theorem c9_witness :
    isCollection (Val.record 3 [("a", Val.num 2)]) = true ∧
    occursIn (Val.record 3 [("a", Val.num 2)])
      (deepMergeChangesC 3 (Val.record 1 [("a", Val.num 1)])
        [Val.record 2 [("a", Val.num 2)]]).1 = true ∧
    (occursIn (Val.record 3 [("a", Val.num 2)]) (Val.record 1 [("a", Val.num 1)]) = true ∨
      (∃ n, n ∈ [Val.record 2 [("a", Val.num 2)]] ∧
        occursIn (Val.record 3 [("a", Val.num 2)]) n = true) ∨
      3 ≤ topId (Val.record 3 [("a", Val.num 2)])) :=
  ⟨by decide, by decide,
    c9_inputs_never_mutated 3 (Val.record 1 [("a", Val.num 1)])
      [Val.record 2 [("a", Val.num 2)]] (Val.record 3 [("a", Val.num 2)])
      (by decide) (by decide)⟩

/-- Witness for the amended C1 at a concrete input: merging `{a:1}` (id 1)
with a deep-equal record `{a:1}` (id 2) short-circuits and returns the
original `current` reference. -/
theorem c1_witness :
    heightVal (Val.record 1 [("a", Val.num 1)]) ≤ 1 ∧
    wfRecords (Val.record 1 [("a", Val.num 1)]) = true ∧
    noSeq (Val.record 1 [("a", Val.num 1)]) = true ∧
    deepEqual (Val.record 1 [("a", Val.num 1)])
      (pmergeC 3 (Val.record 1 [("a", Val.num 1)]) (Val.record 2 [("a", Val.num 1)])).1 = true ∧
    (pmergeC 3 (Val.record 1 [("a", Val.num 1)]) (Val.record 2 [("a", Val.num 1)])).1 =
      Val.record 1 [("a", Val.num 1)] :=
  ⟨by decide, by decide, by decide, by decide,
    c1_amended_deep_equal_collapse 1 (Val.record 1 [("a", Val.num 1)]) (by decide)
      (by decide) (by decide) (Val.record 2 [("a", Val.num 1)]) 3 (by decide)⟩

/-!
Claim C4: the array-vs-array combination. The source truncates
`filteredCurrent` to length `max(numeric keys of filteredNext)` — without
the `+ 1` the specification words — but since the maximal index is always
written by the subsequent `Object.assign`, the two procedures build
literally the same collection.
-/

theorem optSet_append_lt {α : Type} : ∀ (b : List α) (x v : α) (i : Nat), i < b.length →
    (b ++ [x]).set i v = b.set i v ++ [x] := by
  intro b
  induction b with
  | nil => intro x v i h; exact absurd h (Nat.not_lt_zero i)
  | cons a b ih =>
    intro x v i h
    cases i with
    | zero => rfl
    | succ i =>
      show a :: (b ++ [x]).set i v = a :: (b.set i v ++ [x])
      rw [ih x v i (Nat.lt_of_succ_lt_succ h)]

theorem optSet_append_last {α : Type} : ∀ (b : List α) (x v : α),
    (b ++ [x]).set b.length v = b ++ [v] := by
  intro b
  induction b with
  | nil => intro x v; rfl
  | cons a b ih =>
    intro x v
    show a :: (b ++ [x]).set b.length v = a :: (b ++ [v])
    rw [ih x v]

theorem maxNat_mem : ∀ (l : List Nat) (m : Nat), maxNat? l = some m → m ∈ l := by
  intro l
  induction l with
  | nil => intro m h; cases h
  | cons x xs ih =>
    intro m h
    simp only [maxNat?] at h
    cases hx : maxNat? xs with
    | none =>
      rw [hx] at h
      have hxm : x = m := Option.some.inj h
      rw [← hxm]
      exact List.mem_cons_self _ _
    | some k =>
      rw [hx] at h
      have hm : max x k = m := Option.some.inj h
      rcases Nat.le_total x k with hle | hle
      · rw [← hm, Nat.max_eq_right hle]
        exact List.mem_cons_of_mem _ (ih k hx)
      · rw [← hm, Nat.max_eq_left hle]
        exact List.mem_cons_self _ _

theorem maxNat_le : ∀ (l : List Nat) (m : Nat), maxNat? l = some m → ∀ y ∈ l, y ≤ m := by
  intro l
  induction l with
  | nil => intro m h; cases h
  | cons x xs ih =>
    intro m h y hy
    simp only [maxNat?] at h
    cases hx : maxNat? xs with
    | none =>
      rw [hx] at h
      have hxm : x = m := Option.some.inj h
      rcases List.mem_cons.mp hy with rfl | hy2
      · exact Nat.le_of_eq hxm
      · cases xs with
        | nil => cases hy2
        | cons a as =>
          exfalso
          simp only [maxNat?] at hx
          cases hz : maxNat? as with
          | none => rw [hz] at hx; exact Option.noConfusion hx
          | some w => rw [hz] at hx; exact Option.noConfusion hx
    | some k =>
      rw [hx] at h
      have hm : max x k = m := Option.some.inj h
      rcases List.mem_cons.mp hy with rfl | hy2
      · rw [← hm]; exact Nat.le_max_left _ _
      · rw [← hm]; exact le_trans (ih k hx y hy2) (Nat.le_max_right _ _)

/-- Assigning a source whose numeric keys all lie below `b.length` and
which mentions the key `b.length` itself gives the same result whether the
target already has an element at position `b.length` or not: the
assignment overwrites it. -/
theorem assignFold_append_eq : ∀ (src : List (String × Val)) (b : List (Option Val)) (x : Option Val),
    (∀ e ∈ src, ∀ i, parseIndex e.1 = some i → i ≤ b.length) →
    (∃ e ∈ src, parseIndex e.1 = some b.length) →
    src.foldl (fun acc e =>
      match parseIndex e.1 with
      | some i => setArrIdx acc i e.2
      | none => acc) (b ++ [x]) =
    src.foldl (fun acc e =>
      match parseIndex e.1 with
      | some i => setArrIdx acc i e.2
      | none => acc) b := by
  intro src
  induction src with
  | nil =>
    intro b x _ hM
    rcases hM with ⟨e, he, _⟩
    cases he
  | cons f src ih =>
    intro b x hle hM
    rw [List.foldl_cons, List.foldl_cons]
    cases hp : parseIndex f.1 with
    | none =>
      simp only [hp]
      apply ih b x
      · intro e he i hi
        exact hle e (List.mem_cons_of_mem _ he) i hi
      · rcases hM with ⟨e, he, hpe⟩
        rcases List.mem_cons.mp he with rfl | he2
        · rw [hp] at hpe; exact Option.noConfusion hpe
        · exact ⟨e, he2, hpe⟩
    | some i =>
      simp only [hp]
      have hiM : i ≤ b.length := hle f (List.mem_cons_self _ _) i hp
      rcases Nat.lt_or_ge i b.length with hilt | hige
      · have hlt2 : i < (b ++ [x]).length := by simp; omega
        have h1 : setArrIdx (b ++ [x]) i f.2 = b.set i (some f.2) ++ [x] := by
          unfold setArrIdx
          rw [if_pos hlt2]
          exact optSet_append_lt b x (some f.2) i hilt
        have h2 : setArrIdx b i f.2 = b.set i (some f.2) := by
          unfold setArrIdx
          rw [if_pos hilt]
        rw [h1, h2]
        apply ih
        · intro e he j hj
          rw [List.length_set]
          exact hle e (List.mem_cons_of_mem _ he) j hj
        · rcases hM with ⟨e, he, hpe⟩
          rcases List.mem_cons.mp he with rfl | he2
          · rw [hp] at hpe
            have hieq : i = b.length := Option.some.inj hpe
            exact absurd hieq (Nat.ne_of_lt hilt)
          · refine ⟨e, he2, ?_⟩
            rw [List.length_set]
            exact hpe
      · have hieq : i = b.length := Nat.le_antisymm hiM hige
        subst hieq
        have hlt2 : b.length < (b ++ [x]).length := by simp
        have h1 : setArrIdx (b ++ [x]) b.length f.2 = b ++ [some f.2] := by
          unfold setArrIdx
          rw [if_pos hlt2]
          exact optSet_append_last b x (some f.2)
        have h2 : setArrIdx b b.length f.2 = b ++ [some f.2] := by
          unfold setArrIdx
          rw [if_neg (Nat.lt_irrefl _)]
          simp
        rw [h1, h2]

/-- The specification's array-pair procedure in `mapMergeC` form. -/
theorem specArrayMerged_eq (σ : Nat) (c n : Val) :
    specArrayMerged σ c n =
      (objAssign
        (sliceTo (σ + 1) (jsFilter σ c fun k => !isOmit (getKey n k))
          (some (match maxKey ((entriesOf n).filter fun e => !isOmit e.2) with
            | some m => m + 1
            | none => 0)))
        (mapMergeC c (σ + 2) ((entriesOf n).filter fun e => !isOmit e.2)).1,
      (mapMergeC c (σ + 2) ((entriesOf n).filter fun e => !isOmit e.2)).2) := by
  unfold specArrayMerged specArrayMergedF
  have hfold := foldl_step_eq_mapMergeC ((entriesOf n).filter fun e => !isOmit e.2) c
    (heightVal n) [] (σ + 2) (by
      intro e he
      exact entriesOf_height_lt n e (List.mem_of_mem_filter he))
  simp only [hfold, List.nil_append]

/-- On an array pair the source's `merged` (slice bound `max`) and the
specification's procedure (slice bound `max + 1`) build literally the same
collection: the assignment writes the maximal index either way. -/
theorem mergedOf_arr_eq_spec (σ : Nat) (ci : Nat) (xs : List (Option Val)) (n : Val)
    (hn : isArr n = true) :
    mergedOf σ (Val.arr ci xs) n = specArrayMerged σ (Val.arr ci xs) n := by
  have harr : (isArr (Val.arr ci xs) && isArr n) = true := by
    rw [Bool.and_eq_true]; exact ⟨rfl, hn⟩
  rw [mergedOf_eq, specArrayMerged_eq, harr]
  simp only [if_true]
  cases hmk : maxKey ((entriesOf n).filter fun e => !isOmit e.2) with
  | none => rfl
  | some M =>
    have hmk2 : maxNat? (((entriesOf n).filter fun e => !isOmit e.2).filterMap
        fun e => parseIndex e.1) = some M := hmk
    have hkeys : ((mapMergeC (Val.arr ci xs) (σ + 2)
          ((entriesOf n).filter fun e => !isOmit e.2)).1).map Prod.fst =
        ((entriesOf n).filter fun e => !isOmit e.2).map Prod.fst :=
      mapMergeC_keys (Val.arr ci xs) ((entriesOf n).filter fun e => !isOmit e.2) (σ + 2)
    have hle : ∀ e ∈ (mapMergeC (Val.arr ci xs) (σ + 2)
          ((entriesOf n).filter fun e => !isOmit e.2)).1,
        ∀ i, parseIndex e.1 = some i → i ≤ M := by
      intro e he i hi
      have h1 : e.1 ∈ ((entriesOf n).filter fun e => !isOmit e.2).map Prod.fst := by
        rw [← hkeys]
        exact List.mem_map.mpr ⟨e, he, rfl⟩
      obtain ⟨g, hg, hg1⟩ := List.mem_map.mp h1
      have h2 : i ∈ ((entriesOf n).filter fun e => !isOmit e.2).filterMap
          fun e => parseIndex e.1 :=
        List.mem_filterMap.mpr ⟨g, hg, by rw [hg1]; exact hi⟩
      exact maxNat_le _ M hmk2 i h2
    have hMw : ∃ e ∈ (mapMergeC (Val.arr ci xs) (σ + 2)
          ((entriesOf n).filter fun e => !isOmit e.2)).1,
        parseIndex e.1 = some M := by
      have h1 : M ∈ ((entriesOf n).filter fun e => !isOmit e.2).filterMap
          fun e => parseIndex e.1 := maxNat_mem _ M hmk2
      obtain ⟨f, hf, hpf⟩ := List.mem_filterMap.mp h1
      have h2 : f.1 ∈ ((mapMergeC (Val.arr ci xs) (σ + 2)
            ((entriesOf n).filter fun e => !isOmit e.2)).1).map Prod.fst := by
        rw [hkeys]
        exact List.mem_map.mpr ⟨f, hf, rfl⟩
      obtain ⟨e, he, he1⟩ := List.mem_map.mp h2
      refine ⟨e, he, ?_⟩
      show parseIndex e.1 = some M
      rw [he1]
      exact hpf
    have key : List.foldl (fun acc e =>
          match parseIndex e.1 with
          | some i => setArrIdx acc i e.2
          | none => acc)
        ((jsArrayFilter xs 0 fun k => !isOmit (getKey n k)).take (M + 1))
        (mapMergeC (Val.arr ci xs) (σ + 2)
          ((entriesOf n).filter fun e => !isOmit e.2)).1 =
      List.foldl (fun acc e =>
          match parseIndex e.1 with
          | some i => setArrIdx acc i e.2
          | none => acc)
        ((jsArrayFilter xs 0 fun k => !isOmit (getKey n k)).take M)
        (mapMergeC (Val.arr ci xs) (σ + 2)
          ((entriesOf n).filter fun e => !isOmit e.2)).1 := by
      rcases Nat.lt_or_ge M (jsArrayFilter xs 0 fun k => !isOmit (getKey n k)).length
        with hMlt | hMge
      · have htake : (jsArrayFilter xs 0 fun k => !isOmit (getKey n k)).take (M + 1) =
            (jsArrayFilter xs 0 fun k => !isOmit (getKey n k)).take M ++
              [(jsArrayFilter xs 0 fun k => !isOmit (getKey n k))[M]] := by
          rw [List.take_succ, List.getElem?_eq_getElem hMlt]
          rfl
        have hlen : ((jsArrayFilter xs 0 fun k => !isOmit (getKey n k)).take M).length = M := by
          rw [List.length_take]
          exact Nat.min_eq_left (Nat.le_of_lt hMlt)
        rw [htake]
        apply assignFold_append_eq
        · intro e he i hi
          rw [hlen]
          exact hle e he i hi
        · rw [hlen]
          exact hMw
      · rw [List.take_of_length_le hMge,
          List.take_of_length_le (le_trans hMge (Nat.le_succ M))]
    show (Val.arr (σ + 1) (List.foldl (fun acc e =>
          match parseIndex e.1 with
          | some i => setArrIdx acc i e.2
          | none => acc)
        ((jsArrayFilter xs 0 fun k => !isOmit (getKey n k)).take M)
        (mapMergeC (Val.arr ci xs) (σ + 2)
          ((entriesOf n).filter fun e => !isOmit e.2)).1),
      (mapMergeC (Val.arr ci xs) (σ + 2)
        ((entriesOf n).filter fun e => !isOmit e.2)).2) =
      (Val.arr (σ + 1) (List.foldl (fun acc e =>
          match parseIndex e.1 with
          | some i => setArrIdx acc i e.2
          | none => acc)
        ((jsArrayFilter xs 0 fun k => !isOmit (getKey n k)).take (M + 1))
        (mapMergeC (Val.arr ci xs) (σ + 2)
          ((entriesOf n).filter fun e => !isOmit e.2)).1),
      (mapMergeC (Val.arr ci xs) (σ + 2)
        ((entriesOf n).filter fun e => !isOmit e.2)).2)
    rw [key]

/-- C4: when both `current` and `next` are Sequences, the pairwise merge
result is exactly the specification's truncate-and-assign procedure:
truncate `filteredCurrent` to `max(numeric keys of filteredNext) + 1` (to
0 when there is no numeric key, so an empty `next` array yields an empty
array), assign the recursively merged values of `filteredNext` over it by
index (current elements past the bound are dropped, addressed indices are
merged against the current element), and return `current` itself when the
built collection is shallow-equal to it. The source's slice bound omits
the `+ 1`, but the subsequent assignment always writes the maximal index,
so the built collections coincide on the nose. -/
theorem c4_array_truncate_assign (σ : Nat) (c n : Val)
    (hc : isArr c = true) (hn : isArr n = true) :
    pmergeC σ c n =
      if shallowEqual c (specArrayMerged σ c n).1 then
        (c, (specArrayMerged σ c n).2)
      else specArrayMerged σ c n := by
  obtain ⟨ci, xs, rfl⟩ : ∃ ci xs, c = Val.arr ci xs := by
    match c, hc with
    | .arr ci xs, _ => exact ⟨ci, xs, rfl⟩
  have hcoll : (isCollection (Val.arr ci xs) && isCollection n) = true := by
    rw [Bool.and_eq_true]
    refine ⟨rfl, ?_⟩
    match n, hn with
    | .arr _ _, _ => rfl
  rw [pmergeC_eq, if_pos hcoll, mergedOf_arr_eq_spec σ ci xs n hn]

/-- Witness for C4 at a concrete array pair. -/
theorem c4_witness :
    isArr (Val.arr 1 [some (Val.num 1), some (Val.num 2), some (Val.num 3)]) = true ∧
    isArr (Val.arr 2 [some (Val.num 9)]) = true ∧
    pmergeC 5 (Val.arr 1 [some (Val.num 1), some (Val.num 2), some (Val.num 3)])
        (Val.arr 2 [some (Val.num 9)]) =
      if shallowEqual (Val.arr 1 [some (Val.num 1), some (Val.num 2), some (Val.num 3)])
          (specArrayMerged 5 (Val.arr 1 [some (Val.num 1), some (Val.num 2), some (Val.num 3)])
            (Val.arr 2 [some (Val.num 9)])).1 then
        (Val.arr 1 [some (Val.num 1), some (Val.num 2), some (Val.num 3)],
          (specArrayMerged 5 (Val.arr 1 [some (Val.num 1), some (Val.num 2), some (Val.num 3)])
            (Val.arr 2 [some (Val.num 9)])).2)
      else specArrayMerged 5 (Val.arr 1 [some (Val.num 1), some (Val.num 2), some (Val.num 3)])
        (Val.arr 2 [some (Val.num 9)]) :=
  ⟨by decide, by decide,
    c4_array_truncate_assign 5 (Val.arr 1 [some (Val.num 1), some (Val.num 2), some (Val.num 3)])
      (Val.arr 2 [some (Val.num 9)]) (by decide) (by decide)⟩

/-!
Claim C5: a Sequence `current` patched by a PlainRecord `next` whose keys
are numeric index strings.
-/

/-- The element list of an array value. -/
def elemsOf : Val → List (Option Val)
  | .arr _ xs => xs
  | _ => []

theorem setArrIdx_length_le (xs : List (Option Val)) (i : Nat) (v : Val) :
    xs.length ≤ (setArrIdx xs i v).length := by
  unfold setArrIdx
  by_cases h : i < xs.length
  · rw [if_pos h, List.length_set]
  · rw [if_neg h]
    simp [List.length_append]

theorem setArrIdx_getElem_ne (xs : List (Option Val)) (i j : Nat) (v : Val)
    (hj : j < xs.length) (hne : i ≠ j) : (setArrIdx xs i v)[j]? = xs[j]? := by
  unfold setArrIdx
  by_cases h : i < xs.length
  · rw [if_pos h]
    exact List.getElem?_set_ne hne
  · rw [if_neg h, List.append_assoc]
    exact List.getElem?_append_left hj

/-- Index assignment at indices other than `j` leaves position `j` of the
target untouched. -/
theorem assignFold_getElem_ne : ∀ (src : List (String × Val)) (xs : List (Option Val)) (j : Nat),
    j < xs.length → (∀ e ∈ src, parseIndex e.1 ≠ some j) →
    (src.foldl (fun acc e =>
      match parseIndex e.1 with
      | some i => setArrIdx acc i e.2
      | none => acc) xs)[j]? = xs[j]? := by
  intro src
  induction src with
  | nil => intro xs j _ _; rfl
  | cons f src ih =>
    intro xs j hj hne
    rw [List.foldl_cons]
    cases hp : parseIndex f.1 with
    | none =>
      simp only [hp]
      exact ih xs j hj fun e he => hne e (List.mem_cons_of_mem _ he)
    | some i =>
      simp only [hp]
      have hij : i ≠ j := by
        intro hc
        exact hne f (List.mem_cons_self _ _) (by rw [hp, hc])
      rw [ih (setArrIdx xs i f.2) j (lt_of_lt_of_le hj (setArrIdx_length_le xs i f.2))
        (fun e he => hne e (List.mem_cons_of_mem _ he))]
      exact setArrIdx_getElem_ne xs i j f.2 hj hij

/-- `Array.prototype.filter` with an everywhere-true callback is the
identity on a dense array. -/
theorem jsArrayFilter_dense_true : ∀ (xs : List (Option Val)) (i : Nat) (p : String → Bool),
    (∀ s, p s = true) → (∀ x ∈ xs, x ≠ none) → jsArrayFilter xs i p = xs := by
  intro xs
  induction xs with
  | nil => intro i p _ _; rfl
  | cons x xs ih =>
    intro i p hp hd
    cases x with
    | none => exact absurd rfl (hd none (List.mem_cons_self _ _))
    | some v =>
      rw [jsArrayFilter, if_pos (hp _)]
      rw [ih (i + 1) p hp fun y hy => hd y (List.mem_cons_of_mem _ hy)]

/-- Property access on a record none of whose values is the marker never
yields the marker. -/
theorem getKey_record_not_omit (ni : Nat) (nes : List (String × Val))
    (h : ∀ e ∈ nes, isOmit e.2 = false) (k : String) :
    isOmit (getKey (Val.record ni nes) k) = false := by
  show isOmit ((lookupFirst nes k).getD .undef) = false
  cases hl : lookupFirst nes k with
  | none => rfl
  | some v => exact h (k, v) (lookupFirst_mem nes k v hl)

/-- C5: a Sequence `current` patched by a PlainRecord `next` of numeric
index keys. Concretely, `merge({y:[1,2,3]}, {y:{0:4}})` deep-equals
`{y:[4,2,3]}`; `merge({y:[1,2,3]}, {y:{1:OMIT}})` deep-equals `{y:[1,3]}`;
an addressed index is merged — not replaced — against the existing
element with the record rule, so `merge([{f:1,g:2}], {0:{f:9}})`
deep-equals `[{f:9,g:2}]`; and in general, for a dense array `current`
and a marker-free index record `next`, every index `next` does not
address keeps its original element in place. -/
theorem c5_sequence_record_index_merge :
    (deepEqual
      (deepMergeChangesC 3
        (Val.record 1 [("y", Val.arr 2 [some (Val.num 1), some (Val.num 2), some (Val.num 3)])])
        [Val.record 10 [("y", Val.record 11 [("0", Val.num 4)])]]).1
      (Val.record 20 [("y", Val.arr 21 [some (Val.num 4), some (Val.num 2), some (Val.num 3)])])
      = true) ∧
    (deepEqual
      (deepMergeChangesC 3
        (Val.record 1 [("y", Val.arr 2 [some (Val.num 1), some (Val.num 2), some (Val.num 3)])])
        [Val.record 10 [("y", Val.record 11 [("1", Val.omit)])]]).1
      (Val.record 20 [("y", Val.arr 21 [some (Val.num 1), some (Val.num 3)])]) = true) ∧
    (deepEqual
      (deepMergeChangesC 3
        (Val.arr 1 [some (Val.record 2 [("f", Val.num 1), ("g", Val.num 2)])])
        [Val.record 10 [("0", Val.record 11 [("f", Val.num 9)])]]).1
      (Val.arr 20 [some (Val.record 21 [("f", Val.num 9), ("g", Val.num 2)])]) = true) ∧
    (∀ (σ ci ni : Nat) (xs : List (Option Val)) (nes : List (String × Val)) (j : Nat),
      (∀ e ∈ nes, isOmit e.2 = false) →
      (∀ e ∈ nes, (parseIndex e.1).isSome = true) →
      (∀ x ∈ xs, x ≠ none) →
      j < xs.length →
      (∀ e ∈ nes, parseIndex e.1 ≠ some j) →
      (elemsOf (pmergeC σ (Val.arr ci xs) (Val.record ni nes)).1)[j]? = xs[j]?) := by
  refine ⟨by decide, by decide, by decide, ?_⟩
  intro σ ci ni xs nes j hnomit _ hdense hj hnotj
  have hcoll : (isCollection (Val.arr ci xs) && isCollection (Val.record ni nes)) = true := rfl
  rw [pmergeC_eq, if_pos hcoll]
  by_cases hs : shallowEqual (Val.arr ci xs)
      (mergedOf σ (Val.arr ci xs) (Val.record ni nes)).1 = true
  · rw [if_pos hs]
    rfl
  · rw [if_neg hs]
    have harrf : (isArr (Val.arr ci xs) && isArr (Val.record ni nes)) = false := rfl
    rw [mergedOf_eq, harrf]
    simp only [Bool.false_eq_true, if_false]
    have hfn : (entriesOf (Val.record ni nes)).filter (fun e => !isOmit e.2) = nes := by
      show nes.filter (fun e => !isOmit e.2) = nes
      apply List.filter_eq_self.mpr
      intro e he
      rw [hnomit e he]
      rfl
    rw [hfn]
    have hptrue : ∀ s, (!isOmit (getKey (Val.record ni nes) s)) = true := by
      intro s
      rw [getKey_record_not_omit ni nes hnomit s]
      rfl
    have hfilter : jsArrayFilter xs 0 (fun k => !isOmit (getKey (Val.record ni nes) k)) = xs :=
      jsArrayFilter_dense_true xs 0 _ hptrue hdense
    have hmem : ∀ e ∈ (mapMergeC (Val.arr ci xs) (σ + 1) nes).1,
        parseIndex e.1 ≠ some j := by
      intro e he
      have h1 : e.1 ∈ nes.map Prod.fst := by
        rw [← mapMergeC_keys (Val.arr ci xs) nes (σ + 1)]
        exact List.mem_map.mpr ⟨e, he, rfl⟩
      obtain ⟨g, hg, hg1⟩ := List.mem_map.mp h1
      show parseIndex e.1 ≠ some j
      rw [← hg1]
      exact hnotj g hg
    show ((mapMergeC (Val.arr ci xs) (σ + 1) nes).1.foldl (fun acc e =>
        match parseIndex e.1 with
        | some i => setArrIdx acc i e.2
        | none => acc)
      (jsArrayFilter xs 0 fun k => !isOmit (getKey (Val.record ni nes) k)))[j]? = xs[j]?
    rw [hfilter]
    exact assignFold_getElem_ne (mapMergeC (Val.arr ci xs) (σ + 1) nes).1 xs j hj hmem

/-- Witness for C5's general clause at a concrete input: patching index 0
of `[1,2]` leaves index 1 in place. -/
theorem c5_witness :
    (∀ e ∈ ([("0", Val.num 7)] : List (String × Val)), isOmit e.2 = false) ∧
    (∀ e ∈ ([("0", Val.num 7)] : List (String × Val)), (parseIndex e.1).isSome = true) ∧
    (∀ x ∈ ([some (Val.num 1), some (Val.num 2)] : List (Option Val)), x ≠ none) ∧
    1 < ([some (Val.num 1), some (Val.num 2)] : List (Option Val)).length ∧
    (∀ e ∈ ([("0", Val.num 7)] : List (String × Val)), parseIndex e.1 ≠ some 1) ∧
    (elemsOf (pmergeC 5 (Val.arr 1 [some (Val.num 1), some (Val.num 2)])
        (Val.record 2 [("0", Val.num 7)])).1)[1]? =
      ([some (Val.num 1), some (Val.num 2)] : List (Option Val))[1]? := by
  have h1 : ∀ e ∈ ([("0", Val.num 7)] : List (String × Val)), isOmit e.2 = false := by
    intro e he
    rcases List.mem_singleton.mp he with rfl
    rfl
  have h2 : ∀ e ∈ ([("0", Val.num 7)] : List (String × Val)),
      (parseIndex e.1).isSome = true := by
    intro e he
    rcases List.mem_singleton.mp he with rfl
    decide
  have h3 : ∀ x ∈ ([some (Val.num 1), some (Val.num 2)] : List (Option Val)), x ≠ none := by
    intro x hx
    rcases List.mem_cons.mp hx with rfl | hx
    · intro hc; exact Option.noConfusion hc
    · rcases List.mem_singleton.mp hx with rfl
      intro hc; exact Option.noConfusion hc
  have h4 : 1 < ([some (Val.num 1), some (Val.num 2)] : List (Option Val)).length := by decide
  have h5 : ∀ e ∈ ([("0", Val.num 7)] : List (String × Val)), parseIndex e.1 ≠ some 1 := by
    intro e he
    rcases List.mem_singleton.mp he with rfl
    show parseIndex "0" ≠ some 1
    have hp0 : parseIndex ("0" : String) = some 0 := by decide
    intro hc
    rw [hp0] at hc
    exact absurd (Option.some.inj hc) (by decide)
  exact ⟨h1, h2, h3, h4, h5,
    c5_sequence_record_index_merge.2.2.2 5 1 2 [some (Val.num 1), some (Val.num 2)]
      [("0", Val.num 7)] 1 h1 h2 h3 h4 h5⟩
